import Mathlib

/-!
Verification of the Swarm user-space runtime against its specification.

The definitions below are shallow embeddings of the runtime's C++ sources:

* The sequential back-end keeps tasks in a `std::priority_queue` ordered by
  `CompareTasks` (`include/swarm/impl/swtasks.h`), i.e. a binary max-heap
  under the comparator `a->ts > b->ts`, realised by libstdc++'s
  `__push_heap` / `__adjust_heap` / `__pop_heap` (bits/stl_heap.h).
  We embed those heap algorithms exactly, over lists of `(ts, payload)`
  pairs, where the payload records the task's identity (its insertion
  index in the experiments below).
* `run()` of `include/swarm/impl/seq_runtime.h` repeatedly dequeues the
  top task and invokes it.
* The spill/requeue protocol of the spillers header (`__removeOne`,
  `spiller_impl`, `__enqueueOrYield`, `requeuer_impl`).
* The `enqueue_all` tree engine (`include/swarm/impl/enqueue_all.h`).
* The `reduce` pipeline (`include/swarm/impl/reduce.h`).
* `copy` (`__copier` dispatch and the overlap check).
* The TLS back-end's `minTs` bookkeeping (`include/swarm/impl/tls_runtime.h`).
-/

namespace Swarm

/-- A software task as stored in the sequential back-end's priority queue:
its 64-bit timestamp together with an abstract payload identifying the
task (function pointer and arguments in the source; here a `Nat`).
Mirrors `TaskState` of `include/swarm/impl/swtasks.h`. -/
abbrev Task : Type := Nat × Nat

/-- Default element used to totalise out-of-range reads (never reached on
in-range executions). -/
def d0 : Task := (0, 0)

/-- Parent index in the implicit binary heap layout used by libstdc++. -/
def par (i : Nat) : Nat := (i - 1) / 2

/-- Timestamp stored at index `i` of the heap's backing vector; this is
`GetTimestamp` of `swtasks.h` applied to the element at `i`. -/
def hkey (l : List Task) (i : Nat) : Nat := (l.getD i d0).1

/-- libstdc++ `__push_heap` (bits/stl_heap.h): starting from a hole at
index `hole`, move parents down while they compare after `v` under
`CompareTasks` (`a->ts > b->ts`), then write `v` into the final hole.
The comparison `hkey l (par hole) > v.1` is exactly
`__comp(__first + __parent, __value)` with `CompareTasks`.
Structurally fuelled: the hole index strictly decreases, so any
`fuel > hole` runs the loop to completion, and the out-of-fuel action
coincides with the loop-exit action. -/
def siftUpF : Nat → List Task → Nat → Task → List Task
  | 0, l, hole, v => l.set hole v
  | fuel + 1, l, hole, v =>
    if 0 < hole ∧ hkey l (par hole) > v.1 then
      siftUpF fuel (l.set hole (l.getD (par hole) d0)) (par hole) v
    else
      l.set hole v

/-- `__push_heap` entered with hole index `hole` (fuel `hole + 1` is
exact: the hole index strictly decreases each iteration). -/
def siftUp (l : List Task) (hole : Nat) (v : Task) : List Task :=
  siftUpF (hole + 1) l hole v

/-- `std::priority_queue::push`: `push_back` the new element then
`std::push_heap`, which calls `__push_heap` with the hole at the last
position. -/
def heapPush (l : List Task) (v : Task) : List Task :=
  siftUp (l ++ [v]) l.length v

/-- Child selection of libstdc++ `__adjust_heap`: `__secondChild` is the
right child `2*(hole+1)`; if `comp(right, left)` (i.e. the right child's
timestamp is greater) the left child is taken instead. Ties therefore
promote the RIGHT child. -/
def pickChild (l : List Task) (hole : Nat) : Nat :=
  if hkey l (2 * hole + 2) > hkey l (2 * hole + 1) then 2 * hole + 1
  else 2 * hole + 2

/-- The descent loop of libstdc++ `__adjust_heap`: while
`hole < (len - 1) / 2`, promote the selected child into the hole and
descend. Returns the rewritten prefix and the final hole index.
Structurally fuelled: the hole index strictly increases toward
`(len - 1) / 2`, and the out-of-fuel action coincides with the
loop-exit action. -/
def adjustLoopF : Nat → List Task → Nat → Nat → List Task × Nat
  | 0, l, hole, _ => (l, hole)
  | fuel + 1, l, hole, len =>
    if hole < (len - 1) / 2 then
      adjustLoopF fuel (l.set hole (l.getD (pickChild l hole) d0)) (pickChild l hole) len
    else
      (l, hole)

/-- The `__adjust_heap` descent loop with exact fuel `len`. -/
def adjustLoop (l : List Task) (hole : Nat) (len : Nat) : List Task × Nat :=
  adjustLoopF len l hole len

/-- libstdc++ `__adjust_heap` with `holeIndex = 0` (the only way the
runtime reaches it, through `__pop_heap`): descend, apply the even-length
single-child fixup, then sift the saved value `v` back up from the final
hole. -/
def adjustHeap (l : List Task) (len : Nat) (v : Task) : List Task :=
  let p := adjustLoop l 0 len
  let q :=
    if len % 2 = 0 ∧ p.2 = (len - 2) / 2 then
      ((p.1.set p.2 (p.1.getD (2 * p.2 + 1) d0)), 2 * p.2 + 1)
    else p
  siftUp q.1 q.2 v

/-- `dequeueTop` of `swtasks.h`: `top()` returns the front element;
`pop()` runs `std::pop_heap` (save the last element as the value, move
the front out, `__adjust_heap` on the length-(n-1) prefix) and
`pop_back`. Sizes 0 and 1 short-circuit exactly as the library does. -/
def heapPop : List Task → Task × List Task
  | [] => (d0, [])
  | [v] => (v, [])
  | v :: b :: rest =>
    let l := v :: b :: rest
    (v, adjustHeap (l.take (l.length - 1)) (l.length - 1) (l.getD (l.length - 1) d0))

/-- The dequeue loop of `swarm::run` (`include/swarm/impl/seq_runtime.h`,
lines 33-45): while the priority queue is non-empty, `dequeueTop` and
invoke.  The returned list is the sequence of tasks in invocation order.
Fuel-indexed; `seqRun` supplies sufficient fuel. -/
def seqRunAux : Nat → List Task → List Task
  | 0, _ => []
  | fuel + 1, l =>
    if l.isEmpty then []
    else
      let p := heapPop l
      p.1 :: seqRunAux fuel p.2

/-- `swarm::run()` under the sequential back-end, applied to a pre-filled
priority queue. -/
def seqRun (l : List Task) : List Task := seqRunAux l.length l

/-- A sequence of `enqueueTask` calls before `run()`:
`__enqueueSwTask` (`include/swarm/impl/seq_tasks.h`, lines 37-48) pushes
`new Task(ts, args...)` onto the global `pq`. -/
def buildHeap (rs : List Task) : List Task := rs.foldl heapPush []

/-- Model-validation trace: matches the output of
`std::priority_queue<T, vector<T>, CompareTasks>` (libstdc++ 12) on the
same insertion sequence. -/
theorem model_trace_a :
    seqRun (buildHeap [(1, 0), (1, 1), (0, 2)]) = [(0, 2), (1, 1), (1, 0)] := by
  decide

/-- Model-validation trace with six tasks, mixed timestamps. -/
theorem model_trace_b :
    seqRun (buildHeap [(3, 0), (1, 1), (2, 2), (0, 3), (7, 4), (7, 5)]) =
      [(0, 3), (1, 1), (2, 2), (3, 0), (7, 5), (7, 4)] := by
  decide

/-- Model-validation trace with six equal timestamps. -/
theorem model_trace_c :
    seqRun (buildHeap [(5, 0), (5, 1), (5, 2), (5, 3), (5, 4), (5, 5)]) =
      [(5, 0), (5, 2), (5, 5), (5, 4), (5, 1), (5, 3)] := by
  decide

/-- Model-validation trace, third libstdc++ check. -/
theorem model_trace_d :
    seqRun (buildHeap [(2, 0), (9, 1), (1, 2), (9, 3), (0, 4), (4, 5)]) =
      [(0, 4), (1, 2), (2, 0), (4, 5), (9, 3), (9, 1)] := by
  decide

/-! ### Enqueue flags (`include/swarm/impl/enqflags.h`) -/

/-- `NOHASH = 1 << 4`. -/
def NOHASH : Nat := 16

/-- `PRODUCER = 1 << 5`. -/
def PRODUCER : Nat := 32

/-- `MAYSPEC = 1 << 6`. -/
def MAYSPEC : Nat := 64

/-- `CANTSPEC = 1 << 7`. -/
def CANTSPEC : Nat := 128

/-- `NOTIMESTAMP = 1 << 9`. -/
def NOTIMESTAMP : Nat := 512

/-- `REQUEUER = 1 << 10`. -/
def REQUEUER : Nat := 1024

/-- `NONSERIALHINT = 1 << 11`. -/
def NONSERIALHINT : Nat := 2048

/-- `NOHINT = 1 << 16`. -/
def NOHINT : Nat := 65536

/-- `SAMEHINT = 1 << 17`. -/
def SAMEHINT : Nat := 131072

/-- `SAMETASK = 1 << 18`. -/
def SAMETASK : Nat := 262144

/-- `YIELDIFFULL = 1 << 20`. -/
def YIELDIFFULL : Nat := 1048576

/-- `PARENTDOMAIN = 1 << 21`. -/
def PARENTDOMAIN : Nat := 2097152

/-! ### The sequential back-end's enqueue path -/

/-- An `enqueueTask` call under the sequential back-end: timestamp, the
`Hint` pair (`hint` value and `EnqFlags` word, `include/swarm/impl/types.h`),
and the task's identity (function pointer plus marshalled arguments,
abstracted as a `Nat`). -/
structure EnqReq where
  ts : Nat
  hintVal : Nat
  flags : Nat
  pay : Nat

/-- `swarm::enqueueTask` of `seq_runtime.h` (lines 79-82) forwards to
`__enqueueSwTask(Timestamp ts, Hint, Args...)` of `seq_tasks.h`
(lines 37-48), whose `Hint` parameter is unnamed and unused: only
`Task(ts, args...)` is pushed onto `pq`. -/
def seqEnqueueTask (pq : List Task) (r : EnqReq) : List Task :=
  heapPush pq (r.ts, r.pay)

/-- A sequence of sequential-back-end `enqueueTask` calls starting from
the empty global `pq`. -/
def seqBuild (rs : List EnqReq) : List Task := rs.foldl seqEnqueueTask []

/-- `swarm::timestamp()` of the sequential back-end
(`seq_runtime.h` lines 72-74): returns `0` unconditionally. -/
def seq_timestamp : Nat := 0

/-- For each task executed by the sequential `run()`, the pair of the
timestamp supplied at its enqueue and the value `swarm::timestamp()`
returns during its execution. -/
def seqObserved (rs : List EnqReq) : List (Nat × Nat) :=
  (seqRun (seqBuild rs)).map (fun t => (t.1, seq_timestamp))

/-! ### The oracle back-end's dispatch loop and `timestamp()` -/

/-- Oracle runtime state visible to `swarm::timestamp()`: the (root
domain) priority queue and `curTaskTS` (`oracle_runtime.h` line 46). -/
structure OracleState where
  pq : List Task
  curTaskTS : Nat

/-- `swarm::timestamp()` of the oracle back-end (`oracle_runtime.h`
lines 168-173): returns `curTaskTS`. -/
def oracle_timestamp (s : OracleState) : Nat := s.curTaskTS

/-- The oracle `runloop` (`oracle_runtime.h` lines 59-77): dequeue the
top task, set `curTaskTS = t->ts`, then invoke it.  For each executed
task we record the timestamp supplied at its enqueue alongside the value
`swarm::timestamp()` yields during its execution. -/
def oracleRunAux : Nat → List Task → List (Nat × Nat)
  | 0, _ => []
  | fuel + 1, pq =>
    if pq.isEmpty then []
    else
      ((heapPop pq).1.1, oracle_timestamp ⟨(heapPop pq).2, (heapPop pq).1.1⟩) ::
        oracleRunAux fuel (heapPop pq).2

/-- The oracle `runloop` applied to a pre-filled root-domain queue. -/
def oracleRun (pq : List Task) : List (Nat × Nat) := oracleRunAux pq.length pq

/-- The sequential enqueue path only reads the `(ts, pay)` projection of
a request; folding two projection-equal request lists from any common
queue yields the same queue. -/
theorem seqBuild_proj_eq (rs₁ rs₂ : List EnqReq) (pq : List Task)
    (h : rs₁.map (fun r => (r.ts, r.pay)) = rs₂.map (fun r => (r.ts, r.pay))) :
    rs₁.foldl seqEnqueueTask pq = rs₂.foldl seqEnqueueTask pq := by
  induction rs₁ generalizing rs₂ pq with
  | nil =>
    cases rs₂ with
    | nil => rfl
    | cons b bs => simp at h
  | cons a as ih =>
    cases rs₂ with
    | nil => simp at h
    | cons b bs =>
      simp only [List.map_cons, List.cons.injEq, Prod.mk.injEq] at h
      obtain ⟨⟨hts, hpay⟩, htl⟩ := h
      simp only [List.foldl_cons]
      have : seqEnqueueTask pq a = seqEnqueueTask pq b := by
        simp [seqEnqueueTask, hts, hpay]
      rw [this]
      exact ih bs _ htl

/-- Non-strict lexicographic order on `(timestamp, insertion index)`. -/
def lexLeB (a b : Task) : Bool :=
  decide (a.1 < b.1) || (a.1 == b.1 && decide (a.2 ≤ b.2))

/-- Whether a list of tasks is in non-decreasing
`(timestamp, insertion index)` order. -/
def lexOrderedB : List Task → Bool
  | [] => true
  | [_] => true
  | a :: b :: t => lexLeB a b && lexOrderedB (b :: t)

/-- C1.  The claim: under the sequential back-end tasks are invoked in
non-decreasing order of `(timestamp, insertion index)`, ties broken by
insertion order.  Counterexample: enqueueing timestamps `1, 1, 0` (with
payloads recording insertion indices `0, 1, 2`) makes `run()` execute
the two `ts = 1` tasks in the order `1, 0` — the later-enqueued one
first — because `std::priority_queue` is not stable. -/
theorem seq_equal_ts_out_of_insertion_order :
    seqRun (buildHeap [(1, 0), (1, 1), (0, 2)]) = [(0, 2), (1, 1), (1, 0)] ∧
    lexOrderedB (seqRun (buildHeap [(1, 0), (1, 1), (0, 2)])) = false := by
  decide

/-- C2.  The claim: for every back-end, `timestamp()` during task T's
execution returns the `ts` supplied at T's enqueue.  Counterexample: the
sequential back-end's `timestamp()` returns the sentinel `0`
(`seq_runtime.h` lines 72-74), so a task enqueued with `ts = 5` observes
`0 ≠ 5`. -/
theorem seq_timestamp_is_sentinel_zero :
    (5, 0) ∈ seqObserved [⟨5, 0, 0, 0⟩] ∧
    ¬ (∀ p ∈ seqObserved [⟨5, 0, 0, 0⟩], p.2 = p.1) := by
  decide

/-- C2 (amended).  Under the oracle back-end `timestamp()` during a
task's execution equals the timestamp supplied at its enqueue
(`curTaskTS` is set from the dequeued task right before invocation);
under the sequential back-end `timestamp()` returns the sentinel `0`
for every task. -/
theorem timestamp_oracle_exact_seq_sentinel :
    (∀ pq : List Task, ∀ q ∈ oracleRun pq, q.2 = q.1) ∧
    (∀ rs : List EnqReq, ∀ p ∈ seqObserved rs, p.2 = 0) := by
  constructor
  · intro pq q hq
    rw [oracleRun] at hq
    generalize pq.length = fuel at hq
    induction fuel generalizing pq with
    | zero => simp [oracleRunAux] at hq
    | succ n ih =>
      rw [oracleRunAux] at hq
      by_cases hemp : pq.isEmpty
      · simp [hemp] at hq
      · simp only [hemp, if_false] at hq
        cases hq with
        | head => rfl
        | tail _ h => exact ih _ h
  · intro rs p hp
    simp only [seqObserved, List.mem_map] at hp
    obtain ⟨t, _, ht⟩ := hp
    rw [← ht]
    rfl

/-- Closed witness for the amended C2 theorem: a task enqueued at
`ts = 7` under the oracle back-end observes `timestamp() = 7`. -/
theorem timestamp_oracle_exact_seq_sentinel_witness :
    (7, 7) ∈ oracleRun [(7, 0)] ∧ ((7 : Nat), (7 : Nat)).2 = (7, 7).1 :=
  ⟨by decide, timestamp_oracle_exact_seq_sentinel.1 [(7, 0)] (7, 7) (by decide)⟩

/-- C10.  Under the sequential back-end the hint and flags arguments of
`enqueueTask` are discarded (`__enqueueSwTask`'s `Hint` parameter is
unnamed): two enqueue sequences that agree on timestamps and task
identities but differ arbitrarily in hints and flags build identical
priority queues and execute identically. -/
theorem seq_hint_flags_discarded (rs₁ rs₂ : List EnqReq)
    (h : rs₁.map (fun r => (r.ts, r.pay)) = rs₂.map (fun r => (r.ts, r.pay))) :
    seqBuild rs₁ = seqBuild rs₂ ∧ seqRun (seqBuild rs₁) = seqRun (seqBuild rs₂) := by
  have hb : seqBuild rs₁ = seqBuild rs₂ := seqBuild_proj_eq rs₁ rs₂ [] h
  exact ⟨hb, by rw [hb]⟩

/-- Closed witness for C10: a `NOHINT` enqueue and a
`SAMEHINT | PARENTDOMAIN` enqueue with different hint values but equal
`(ts, task)` produce identical queues and runs. -/
theorem seq_hint_flags_discarded_witness :
    ([⟨3, 7, 65536, 42⟩] : List EnqReq).map (fun r => (r.ts, r.pay)) =
      ([⟨3, 9, 2228224, 42⟩] : List EnqReq).map (fun r => (r.ts, r.pay)) ∧
    (seqBuild [⟨3, 7, 65536, 42⟩] = seqBuild [⟨3, 9, 2228224, 42⟩] ∧
      seqRun (seqBuild [⟨3, 7, 65536, 42⟩]) = seqRun (seqBuild [⟨3, 9, 2228224, 42⟩])) :=
  ⟨by decide, seq_hint_flags_discarded _ _ (by decide)⟩

/-! ### Content preservation of the heap operations -/

/-- Reading then setting the same position, as seen by multisets:
replacing position `j` by `v` and consing the old inhabitant is a
permutation of consing `v` onto the original list. -/
theorem getD_cons_set_perm (xs : List Task) (j : Nat) (v : Task) (hj : j < xs.length) :
    ((xs.getD j d0) :: xs.set j v).Perm (v :: xs) := by
  induction xs generalizing j with
  | nil => simp at hj
  | cons y ys ih =>
    cases j with
    | zero =>
      simpa using List.Perm.swap v y ys
    | succ j =>
      have hj' : j < ys.length := by simpa using hj
      have h1 := (ih j hj').cons y
      have h2 := List.Perm.swap y (ys.getD j d0) (ys.set j v)
      have h3 := List.Perm.swap v y ys
      simpa using (h2.trans h1).trans h3

/-- Moving the inhabitant of `j` into `i` and then overwriting `j` is,
up to permutation, the same as overwriting `i` directly. This is the
single-step shape of libstdc++'s hole-shifting loops. -/
theorem set_set_perm (l : List Task) (i j : Nat) (v : Task)
    (hi : i < l.length) (hj : j < l.length) (hne : i ≠ j) :
    ((l.set i (l.getD j d0)).set j v).Perm (l.set i v) := by
  induction l generalizing i j with
  | nil => simp at hi
  | cons x xs ih =>
    cases i with
    | zero =>
      cases j with
      | zero => exact absurd rfl hne
      | succ j =>
        have hj' : j < xs.length := by simpa using hj
        simpa using getD_cons_set_perm xs j v hj'
    | succ i =>
      cases j with
      | zero =>
        have hi' : i < xs.length := by simpa using hi
        have h := getD_cons_set_perm (xs.set i x) i v (by simpa using hi')
        rw [List.set_set] at h
        have hget : (xs.set i x).getD i d0 = x := by
          rw [List.getD_eq_getElem?_getD, List.getElem?_set_self hi']
          rfl
        rw [hget] at h
        simpa using h.symm
      | succ j =>
        have hi' : i < xs.length := by simpa using hi
        have hj' : j < xs.length := by simpa using hj
        have hne' : i ≠ j := fun hc => hne (by rw [hc])
        simpa using (ih i j hi' hj' hne').cons x

/-- `siftUpF` preserves list length. -/
theorem siftUpF_length (fuel : Nat) (l : List Task) (hole : Nat) (v : Task) :
    (siftUpF fuel l hole v).length = l.length := by
  induction fuel generalizing l hole with
  | zero => simp [siftUpF]
  | succ n ih =>
    rw [siftUpF]
    split
    · rw [ih, List.length_set]
    · simp

/-- `siftUpF` only permutes: its result is a permutation of directly
writing the sifted value into the initial hole. -/
theorem siftUpF_perm (fuel : Nat) (l : List Task) (hole : Nat) (v : Task)
    (hh : hole < l.length) :
    (siftUpF fuel l hole v).Perm (l.set hole v) := by
  induction fuel generalizing l hole with
  | zero => exact List.Perm.refl _
  | succ n ih =>
    rw [siftUpF]
    split
    · rename_i hcond
      have hpar : par hole < hole := by
        simp only [par]
        omega
      have h1 := ih (l.set hole (l.getD (par hole) d0)) (par hole)
        (by rw [List.length_set]; omega)
      exact h1.trans (set_set_perm l hole (par hole) v hh (by omega) (by omega))
    · exact List.Perm.refl _

/-- Setting the appended slot of `l ++ [v]` rewrites that slot. -/
theorem set_append_length (l : List Task) (v w : Task) :
    (l ++ [v]).set l.length w = l ++ [w] := by
  induction l with
  | nil => rfl
  | cons x xs ih => simp [List.set, ih]

/-- Pushing onto the heap adds exactly the pushed element. -/
theorem heapPush_perm (l : List Task) (v : Task) :
    (heapPush l v).Perm (v :: l) := by
  have h1 := siftUpF_perm (l.length + 1) (l ++ [v]) l.length v (by simp)
  rw [heapPush, siftUp]
  rw [set_append_length] at h1
  exact h1.trans (List.perm_append_singleton v l)

/-- The chosen child of the `__adjust_heap` descent is one of the two
children of the hole. -/
theorem pickChild_cases (l : List Task) (hole : Nat) :
    pickChild l hole = 2 * hole + 1 ∨ pickChild l hole = 2 * hole + 2 := by
  rw [pickChild]
  split
  · exact Or.inl rfl
  · exact Or.inr rfl

/-- Combined bookkeeping for the `__adjust_heap` descent loop: it
preserves length, moves the hole downward but within range, runs to the
loop's exit condition given enough fuel, and only permutes elements
relative to writing directly into the initial hole. -/
theorem adjustLoopF_spec (fuel : Nat) (l : List Task) (hole len : Nat)
    (hh : hole < len) (hlen : len ≤ l.length) (hfuel : (len - 1) / 2 ≤ fuel + hole) :
    (adjustLoopF fuel l hole len).1.length = l.length ∧
    hole ≤ (adjustLoopF fuel l hole len).2 ∧
    (adjustLoopF fuel l hole len).2 < len ∧
    ¬ ((adjustLoopF fuel l hole len).2 < (len - 1) / 2) ∧
    ∀ v : Task, (((adjustLoopF fuel l hole len).1).set (adjustLoopF fuel l hole len).2 v).Perm
      (l.set hole v) := by
  induction fuel generalizing l hole with
  | zero =>
    rw [adjustLoopF]
    refine ⟨rfl, Nat.le_refl _, hh, by omega, fun v => List.Perm.refl _⟩
  | succ n ih =>
    rw [adjustLoopF]
    split
    · rename_i hguard
      rcases pickChild_cases l hole with hc | hc <;>
      · have hcb : pickChild l hole < len := by omega
        have hgt : hole < pickChild l hole := by omega
        have := ih (l.set hole (l.getD (pickChild l hole) d0)) (pickChild l hole)
          hcb (by rw [List.length_set]; exact hlen) (by omega)
        refine ⟨by rw [this.1, List.length_set], by omega, this.2.2.1, this.2.2.2.1, fun v => ?_⟩
        exact (this.2.2.2.2 v).trans
          (set_set_perm l hole (pickChild l hole) v (by omega) (by omega) (by omega))
    · exact ⟨rfl, Nat.le_refl _, hh, by assumption, fun v => List.Perm.refl _⟩

/-- `adjustHeap` preserves length and only permutes elements relative to
writing the saved value directly into the root hole. -/
theorem adjustHeap_perm (l : List Task) (len : Nat) (v : Task)
    (hlen : len ≤ l.length) (hpos : 0 < len) :
    (adjustHeap l len v).Perm (l.set 0 v) ∧ (adjustHeap l len v).length = l.length := by
  rw [adjustHeap, adjustLoop]
  have hspec := adjustLoopF_spec len l 0 len hpos hlen (by omega)
  set r := adjustLoopF len l 0 len with hr
  split
  · rename_i hfix
    have hodd : 2 * r.2 + 1 = len - 1 := by omega
    have hlt : 2 * r.2 + 1 < r.1.length := by omega
    have hperm1 := siftUpF_perm (2 * r.2 + 1 + 1) (r.1.set r.2 (r.1.getD (2 * r.2 + 1) d0))
      (2 * r.2 + 1) v (by rw [List.length_set]; omega)
    have hperm2 := set_set_perm r.1 r.2 (2 * r.2 + 1) v (by omega) hlt (by omega)
    have hlen1 : (siftUp (r.1.set r.2 (r.1.getD (2 * r.2 + 1) d0)) (2 * r.2 + 1) v).length
        = l.length := by
      rw [siftUp, siftUpF_length, List.length_set, hspec.1]
    exact ⟨(hperm1.trans hperm2).trans (hspec.2.2.2.2 v), hlen1⟩
  · have hperm1 := siftUpF_perm (r.2 + 1) r.1 r.2 v (by omega)
    have hlen1 : (siftUp r.1 r.2 v).length = l.length := by
      rw [siftUp, siftUpF_length, hspec.1]
    exact ⟨hperm1.trans (hspec.2.2.2.2 v), hlen1⟩

/-- The head returned by `dequeueTop` is the front of the backing
vector. -/
theorem heapPop_head (l : List Task) (h : l ≠ []) :
    (heapPop l).1 = l.getD 0 d0 := by
  match l with
  | [v] => rfl
  | v :: b :: rest => rfl

/-- `getD` at the last index is `getLast`. -/
theorem getD_last (r : List Task) (h : r ≠ []) :
    r.getD (r.length - 1) d0 = r.getLast h := by
  induction r with
  | nil => simp at h
  | cons c cs ih =>
    cases cs with
    | nil => rfl
    | cons d ds =>
      have h1 : (c :: d :: ds).length - 1 = (d :: ds).length - 1 + 1 := by simp
      rw [h1, List.getD_cons_succ, List.getLast_cons (by simp)]
      exact ih (by simp)

/-- `dequeueTop` removes exactly one occurrence of the front element:
the popped element consed onto the new queue is a permutation of the old
queue. -/
theorem heapPop_perm (l : List Task) (h : l ≠ []) :
    ((heapPop l).1 :: (heapPop l).2).Perm l := by
  match l with
  | [v] => exact List.Perm.refl _
  | v :: b :: rest =>
    have hg : (b :: rest) ≠ [] := by simp
    have hlen : (v :: b :: rest).length - 1 = (b :: rest).length := by simp
    have htake : (v :: b :: rest).take ((v :: b :: rest).length - 1) =
        v :: (b :: rest).dropLast := by
      rw [hlen]
      show (v :: b :: rest).take (rest.length + 1) = _
      rw [List.take_succ_cons, List.dropLast_eq_take]
      simp
    have hvalue : (v :: b :: rest).getD ((v :: b :: rest).length - 1) d0 =
        (b :: rest).getLast hg := by
      rw [hlen]
      show (v :: b :: rest).getD (rest.length + 1) d0 = _
      rw [List.getD_cons_succ]
      have h2 : rest.length = (b :: rest).length - 1 := by simp
      rw [h2]
      exact getD_last (b :: rest) hg
    have hpop : heapPop (v :: b :: rest) =
        (v, adjustHeap ((v :: b :: rest).take ((v :: b :: rest).length - 1))
          ((v :: b :: rest).length - 1)
          ((v :: b :: rest).getD ((v :: b :: rest).length - 1) d0)) := rfl
    rw [hpop, htake, hvalue, hlen]
    have hadj := adjustHeap_perm (v :: (b :: rest).dropLast) (b :: rest).length
      ((b :: rest).getLast hg) (by simp) (by simp)
    have hset : (v :: (b :: rest).dropLast).set 0 ((b :: rest).getLast hg) =
        (b :: rest).getLast hg :: (b :: rest).dropLast := rfl
    rw [hset] at hadj
    have hback : ((b :: rest).getLast hg :: (b :: rest).dropLast).Perm (b :: rest) := by
      have e : (b :: rest).dropLast ++ [(b :: rest).getLast hg] = b :: rest :=
        List.dropLast_concat_getLast hg
      have q : ((b :: rest).dropLast ++ [(b :: rest).getLast hg]).Perm (b :: rest) := by
        rw [e]
      exact (List.perm_append_singleton _ _).symm.trans q
    exact ((hadj.1.trans hback).cons v)

/-- `dequeueTop` shrinks a non-empty queue by exactly one. -/
theorem heapPop_length (l : List Task) :
    (heapPop l).2.length = l.length - 1 := by
  match l with
  | [] => rfl
  | [v] => rfl
  | v :: b :: rest =>
    have h := (heapPop_perm (v :: b :: rest) (by simp)).length_eq
    simp only [List.length_cons] at h ⊢
    omega

/-! ### The heap invariant of `std::priority_queue` with `CompareTasks` -/

/-- The binary-heap invariant: each element's timestamp is at least its
parent's.  This is the representation invariant `std::priority_queue`
maintains on its backing vector with `CompareTasks`. -/
def heapProp (l : List Task) : Prop :=
  ∀ i, 0 < i → i < l.length → hkey l (par i) ≤ hkey l i

/-- Key of an overwritten slot. -/
theorem hkey_set_self (l : List Task) (i : Nat) (v : Task) (hi : i < l.length) :
    hkey (l.set i v) i = v.1 := by
  simp [hkey, List.getD_eq_getElem?_getD, List.getElem?_set_self hi]

/-- Key of an untouched slot. -/
theorem hkey_set_ne (l : List Task) (i j : Nat) (v : Task) (hne : i ≠ j) :
    hkey (l.set i v) j = hkey l j := by
  simp [hkey, List.getD_eq_getElem?_getD, List.getElem?_set_ne hne]

/-- Keys are unchanged by appending past the index. -/
theorem hkey_append (l : List Task) (v : Task) (i : Nat) (hi : i < l.length) :
    hkey (l ++ [v]) i = hkey l i := by
  simp [hkey, List.getD_eq_getElem?_getD, List.getElem?_append_left hi]

/-- Key of the appended slot. -/
theorem hkey_append_self (l : List Task) (v : Task) :
    hkey (l ++ [v]) l.length = v.1 := by
  simp [hkey, List.getD_eq_getElem?_getD, List.getElem?_concat_length]

/-- Keys are unchanged by truncation before the index. -/
theorem hkey_take (l : List Task) (m i : Nat) (hi : i < m) :
    hkey (l.take m) i = hkey l i := by
  simp [hkey, List.getD_eq_getElem?_getD, List.getElem?_take_of_lt hi]

/-- The moved value's key: `hkey` is definitionally the key of
`List.getD`. -/
theorem hkey_getD (l : List Task) (i : Nat) : (l.getD i d0).1 = hkey l i := rfl

/-- The parent index is strictly smaller. -/
theorem par_lt (m : Nat) (hm : 0 < m) : par m < m := by
  simp only [par]
  omega

/-- Invariant preservation of libstdc++ `__push_heap`: if all
parent/child pairs except those with the hole as child are ordered, the
value is below the hole's children, and the hole's parent is below the
hole's children, then sifting the value up restores the full heap
invariant. -/
theorem siftUpF_prop (fuel : Nat) (l : List Task) (hole : Nat) (v : Task)
    (hfuel : hole < fuel) (hh : hole < l.length)
    (hA : ∀ i, 0 < i → i < l.length → i ≠ hole → hkey l (par i) ≤ hkey l i)
    (hB : ∀ c, (c = 2 * hole + 1 ∨ c = 2 * hole + 2) → c < l.length → v.1 ≤ hkey l c)
    (hC : 0 < hole → ∀ c, (c = 2 * hole + 1 ∨ c = 2 * hole + 2) → c < l.length →
      hkey l (par hole) ≤ hkey l c) :
    heapProp (siftUpF fuel l hole v) := by
  induction fuel generalizing l hole with
  | zero => omega
  | succ n ih =>
    rw [siftUpF]
    split
    · rename_i hg
      obtain ⟨h0, hgt⟩ := hg
      have hpar : par hole < hole := par_lt hole h0
      apply ih (l.set hole (l.getD (par hole) d0)) (par hole) (by omega)
        (by rw [List.length_set]; omega)
      · intro i hi0 hilen hine
        rw [List.length_set] at hilen
        by_cases hihole : i = hole
        · subst hihole
          rw [hkey_set_ne _ _ _ _ (by omega : i ≠ par i),
            hkey_set_self _ _ _ hh, hkey_getD]
        · by_cases hpihole : par i = hole
          · have hchild : i = 2 * hole + 1 ∨ i = 2 * hole + 2 := by
              simp only [par] at hpihole
              omega
            rw [hpihole, hkey_set_self _ _ _ hh,
              hkey_set_ne _ _ _ _ (Ne.symm hihole), hkey_getD]
            exact hC h0 i hchild hilen
          · rw [hkey_set_ne _ _ _ _ (Ne.symm hpihole),
              hkey_set_ne _ _ _ _ (Ne.symm hihole)]
            exact hA i hi0 hilen hihole
      · intro c hc hclen
        rw [List.length_set] at hclen
        have hc0 : 0 < c := by rcases hc with rfl | rfl <;> omega
        have hparc : par c = par hole := by
          rcases hc with rfl | rfl <;> · simp only [par]; omega
        by_cases hchole : c = hole
        · subst hchole
          rw [hkey_set_self _ _ _ hh, hkey_getD]
          omega
        · rw [hkey_set_ne _ _ _ _ (Ne.symm hchole)]
          have h1 := hA c hc0 hclen hchole
          rw [hparc] at h1
          omega
      · intro hp0 c hc hclen
        rw [List.length_set] at hclen
        have hc0 : 0 < c := by rcases hc with rfl | rfl <;> omega
        have hparc : par c = par hole := by
          rcases hc with rfl | rfl <;> · simp only [par]; omega
        have hpp : par (par hole) < par hole := par_lt _ hp0
        rw [hkey_set_ne _ _ _ _ (by omega : hole ≠ par (par hole))]
        have hAp := hA (par hole) hp0 (by omega) (by omega)
        by_cases hchole : c = hole
        · subst hchole
          rw [hkey_set_self _ _ _ hh, hkey_getD]
          exact hAp
        · rw [hkey_set_ne _ _ _ _ (Ne.symm hchole)]
          have h2 := hA c hc0 hclen hchole
          rw [hparc] at h2
          omega
    · rename_i hg
      intro i hi0 hilen
      rw [List.length_set] at hilen
      by_cases hihole : i = hole
      · subst hihole
        have hpar : par i < i := by simp only [par]; omega
        rw [hkey_set_ne _ _ _ _ (by omega : i ≠ par i), hkey_set_self _ _ _ hh]
        have : ¬ hkey l (par i) > v.1 := fun hc => hg ⟨hi0, hc⟩
        omega
      · by_cases hpihole : par i = hole
        · have hchild : i = 2 * hole + 1 ∨ i = 2 * hole + 2 := by
            simp only [par] at hpihole
            omega
          rw [hpihole, hkey_set_self _ _ _ hh, hkey_set_ne _ _ _ _ (Ne.symm hihole)]
          exact hB i hchild hilen
        · rw [hkey_set_ne _ _ _ _ (Ne.symm hpihole),
            hkey_set_ne _ _ _ _ (Ne.symm hihole)]
          exact hA i hi0 hilen hihole

/-- A child's parent index. -/
theorem par_child (h c : Nat) (hc : c = 2 * h + 1 ∨ c = 2 * h + 2) : par c = h := by
  rcases hc with rfl | rfl <;> · simp only [par]; omega

/-- The chosen child of the `__adjust_heap` descent carries the smaller
timestamp of the two children (ties resolved to the right child). -/
theorem pickChild_min (l : List Task) (hole : Nat) :
    hkey l (pickChild l hole) ≤ hkey l (2 * hole + 1) ∧
    hkey l (pickChild l hole) ≤ hkey l (2 * hole + 2) := by
  rw [pickChild]
  split
  · rename_i hgt
    exact ⟨Nat.le_refl _, by omega⟩
  · rename_i hle
    exact ⟨by omega, Nat.le_refl _⟩

/-- `std::priority_queue::push` preserves the heap invariant. -/
theorem heapPush_prop (l : List Task) (v : Task) (hp : heapProp l) :
    heapProp (heapPush l v) := by
  rw [heapPush, siftUp]
  apply siftUpF_prop _ _ _ _ (Nat.lt_succ_self _) (by simp)
  · intro i hi0 hilen hine
    have hi : i < l.length := by
      simp only [List.length_append, List.length_cons, List.length_nil] at hilen
      omega
    have hpi : par i < l.length := by
      have : par i < i := by simp only [par]; omega
      omega
    rw [hkey_append _ _ _ hi, hkey_append _ _ _ hpi]
    exact hp i hi0 hi
  · intro c hc hclen
    simp only [List.length_append, List.length_cons, List.length_nil] at hclen
    omega
  · intro h0 c hc hclen
    simp only [List.length_append, List.length_cons, List.length_nil] at hclen
    omega

/-- Invariant propagation of the `__adjust_heap` descent loop: ordering
of all parent/child pairs away from the hole, and of the hole's parent
with the hole's children, is maintained as the hole moves down. -/
theorem adjustLoopF_prop (fuel : Nat) (l : List Task) (hole len : Nat)
    (hlen : len = l.length) (hh : hole < len)
    (hA2 : ∀ i, 0 < i → i < len → i ≠ hole → par i ≠ hole → hkey l (par i) ≤ hkey l i)
    (hC2 : 0 < hole → ∀ c, (c = 2 * hole + 1 ∨ c = 2 * hole + 2) → c < len →
      hkey l (par hole) ≤ hkey l c) :
    (∀ i, 0 < i → i < len → i ≠ (adjustLoopF fuel l hole len).2 →
      par i ≠ (adjustLoopF fuel l hole len).2 →
      hkey (adjustLoopF fuel l hole len).1 (par i) ≤ hkey (adjustLoopF fuel l hole len).1 i) ∧
    (0 < (adjustLoopF fuel l hole len).2 →
      ∀ c, (c = 2 * (adjustLoopF fuel l hole len).2 + 1 ∨
            c = 2 * (adjustLoopF fuel l hole len).2 + 2) → c < len →
      hkey (adjustLoopF fuel l hole len).1 (par (adjustLoopF fuel l hole len).2) ≤
        hkey (adjustLoopF fuel l hole len).1 c) := by
  induction fuel generalizing l hole with
  | zero =>
    rw [adjustLoopF]
    exact ⟨hA2, hC2⟩
  | succ n ih =>
    rw [adjustLoopF]
    split
    · rename_i hguard
      have hcc := pickChild_cases l hole
      have hcmin := pickChild_min l hole
      have hchole : hole < pickChild l hole := by rcases hcc with h | h <;> omega
      have hclen : pickChild l hole < len := by rcases hcc with h | h <;> omega
      have hparc : par (pickChild l hole) = hole := par_child hole _ hcc
      apply ih (l.set hole (l.getD (pickChild l hole) d0)) (pickChild l hole)
        (by rw [List.length_set]; exact hlen) hclen
      · intro i hi0 hilen hine hpine
        by_cases hihole : i = hole
        · have h0 : 0 < hole := hihole ▸ hi0
          rw [hihole]
          have hplt := par_lt hole h0
          rw [hkey_set_ne _ _ _ _ (by omega : hole ≠ par hole),
            hkey_set_self _ _ _ (by omega : hole < l.length), hkey_getD]
          exact hC2 h0 _ hcc hclen
        · by_cases hpihole : par i = hole
          · have hichild : i = 2 * hole + 1 ∨ i = 2 * hole + 2 := by
              simp only [par] at hpihole
              omega
            rw [hpihole, hkey_set_self _ _ _ (by omega : hole < l.length),
              hkey_set_ne _ _ _ _ (Ne.symm hihole), hkey_getD]
            rcases hichild with hcase | hcase <;> rw [hcase]
            · exact hcmin.1
            · exact hcmin.2
          · rw [hkey_set_ne _ _ _ _ (Ne.symm hpihole),
              hkey_set_ne _ _ _ _ (Ne.symm hihole)]
            exact hA2 i hi0 hilen hihole hpihole
      · intro hc0 gc hgc hgclen
        have hgc0 : 0 < gc := by rcases hgc with rfl | rfl <;> omega
        have hgcc : par gc = pickChild l hole := par_child _ _ hgc
        have hgcne : gc ≠ hole := by rcases hgc with rfl | rfl <;> omega
        rw [hparc, hkey_set_self _ _ _ (by omega : hole < l.length),
          hkey_set_ne _ _ _ _ (Ne.symm hgcne), hkey_getD]
        have h2 := hA2 gc hgc0 hgclen hgcne (by rw [hgcc]; omega)
        rw [hgcc] at h2
        exact h2
    · exact ⟨hA2, hC2⟩

/-- libstdc++ `__adjust_heap` restores the heap invariant on a working
prefix whose root slot is a hole (pairs not below the root are ordered). -/
theorem adjustHeap_prop (l : List Task) (len : Nat) (v : Task)
    (hlen : len = l.length) (hpos : 0 < len)
    (hA2 : ∀ i, 0 < i → i < len → par i ≠ 0 → hkey l (par i) ≤ hkey l i) :
    heapProp (adjustHeap l len v) := by
  rw [adjustHeap, adjustLoop]
  have hspec := adjustLoopF_spec len l 0 len hpos (by omega) (by omega)
  have hprop := adjustLoopF_prop len l 0 len hlen hpos
    (fun i hi0 hilen _ hpine => hA2 i hi0 hilen hpine)
    (fun h0 => absurd h0 (by omega))
  split
  · rename_i hfix
    obtain ⟨heven, hfold⟩ := hfix
    have hlast : 2 * (adjustLoopF len l 0 len).2 + 1 = len - 1 := by omega
    have hr2len : (adjustLoopF len l 0 len).2 < (adjustLoopF len l 0 len).1.length := by
      rw [hspec.1]
      omega
    show heapProp (siftUp
      ((adjustLoopF len l 0 len).1.set (adjustLoopF len l 0 len).2
        ((adjustLoopF len l 0 len).1.getD (2 * (adjustLoopF len l 0 len).2 + 1) d0))
      (2 * (adjustLoopF len l 0 len).2 + 1) v)
    rw [siftUp]
    apply siftUpF_prop _ _ _ _ (Nat.lt_succ_self _)
      (by rw [List.length_set, hspec.1]; omega)
    · intro i hi0 hilen hine
      rw [List.length_set, hspec.1, ← hlen] at hilen
      by_cases hir : i = (adjustLoopF len l 0 len).2
      · have hr0 : 0 < (adjustLoopF len l 0 len).2 := hir ▸ hi0
        have hplt := par_lt _ hr0
        rw [hir, hkey_set_ne _ _ _ _ (by omega :
            (adjustLoopF len l 0 len).2 ≠ par (adjustLoopF len l 0 len).2),
          hkey_set_self _ _ _ hr2len, hkey_getD]
        exact hprop.2 hr0 _ (Or.inl rfl) (by omega)
      · by_cases hpir : par i = (adjustLoopF len l 0 len).2
        · have hichild : i = 2 * (adjustLoopF len l 0 len).2 + 1 ∨
              i = 2 * (adjustLoopF len l 0 len).2 + 2 := by
            simp only [par] at hpir
            omega
          exfalso
          rcases hichild with hcase | hcase <;> omega
        · rw [hkey_set_ne _ _ _ _ (Ne.symm hpir), hkey_set_ne _ _ _ _ (Ne.symm hir)]
          exact hprop.1 i hi0 hilen hir hpir
    · intro c hc hclen
      rw [List.length_set, hspec.1, ← hlen] at hclen
      rcases hc with rfl | rfl <;> omega
    · intro h0 c hc hclen
      rw [List.length_set, hspec.1, ← hlen] at hclen
      rcases hc with rfl | rfl <;> omega
  · rename_i hnofix
    have hpar2 : len % 2 = 1 ∨ (adjustLoopF len l 0 len).2 ≠ (len - 2) / 2 := by
      by_cases hp : len % 2 = 0
      · exact Or.inr (fun hc => hnofix ⟨hp, hc⟩)
      · exact Or.inl (by omega)
    have hexit := hspec.2.2.2.1
    have hchildless : 2 * (adjustLoopF len l 0 len).2 + 1 ≥ len := by
      rcases hpar2 with hp | hp <;> omega
    rw [siftUp]
    apply siftUpF_prop _ _ _ _ (Nat.lt_succ_self _) (by rw [hspec.1]; omega)
    · intro i hi0 hilen hine
      rw [hspec.1, ← hlen] at hilen
      have hpine : par i ≠ (adjustLoopF len l 0 len).2 := by
        intro hc
        have : i = 2 * (adjustLoopF len l 0 len).2 + 1 ∨
            i = 2 * (adjustLoopF len l 0 len).2 + 2 := by
          simp only [par] at hc
          omega
        rcases this with hcase | hcase <;> omega
      exact hprop.1 i hi0 hilen hine hpine
    · intro c hc hclen
      rw [hspec.1, ← hlen] at hclen
      rcases hc with rfl | rfl <;> omega
    · intro h0 c hc hclen
      rw [hspec.1, ← hlen] at hclen
      rcases hc with rfl | rfl <;> omega

/-- The empty queue satisfies the heap invariant. -/
theorem heapProp_nil : heapProp [] := by
  intro i hi0 hilen
  simp at hilen

/-- `std::priority_queue::pop` preserves the heap invariant. -/
theorem heapPop_prop (l : List Task) (hp : heapProp l) : heapProp (heapPop l).2 := by
  match l with
  | [] => exact heapProp_nil
  | [v] => exact heapProp_nil
  | v :: b :: rest =>
    show heapProp (adjustHeap ((v :: b :: rest).take ((v :: b :: rest).length - 1))
      ((v :: b :: rest).length - 1) ((v :: b :: rest).getD ((v :: b :: rest).length - 1) d0))
    apply adjustHeap_prop
    · rw [List.length_take]
      simp
    · simp
    · intro i hi0 hilen hpine
      have hpar : par i < i := par_lt i hi0
      rw [hkey_take _ _ _ hilen, hkey_take _ _ _ (by omega)]
      exact hp i hi0 (by simp at hilen ⊢; omega)

/-- In a heap, the root's timestamp is minimal. -/
theorem heapProp_root_le (l : List Task) (hp : heapProp l) (i : Nat) (hi : i < l.length) :
    hkey l 0 ≤ hkey l i := by
  induction i using Nat.strong_induction_on with
  | _ i ih =>
    cases Nat.eq_zero_or_pos i with
    | inl h => rw [h]
    | inr h0 =>
      have hpar : par i < i := par_lt i h0
      exact Nat.le_trans (ih (par i) hpar (by omega)) (hp i h0 hi)

/-- `hkey` at an in-range index is the stored timestamp. -/
theorem hkey_eq_getElem (l : List Task) (i : Nat) (hi : i < l.length) :
    hkey l i = l[i].1 := by
  simp [hkey, List.getD_eq_getElem?_getD, List.getElem?_eq_getElem hi]

/-- In a heap, the root's timestamp bounds every member's timestamp. -/
theorem heapProp_root_le_mem (l : List Task) (hp : heapProp l) (x : Task) (hx : x ∈ l) :
    (l.getD 0 d0).1 ≤ x.1 := by
  obtain ⟨i, hi, hix⟩ := List.mem_iff_getElem.mp hx
  have h1 := heapProp_root_le l hp i hi
  rw [hkey_eq_getElem _ _ hi, hix] at h1
  rw [hkey_getD]
  exact h1

/-- The dequeue loop of the sequential `run()` emits a permutation of
the queue's contents: every queued task is invoked exactly once. -/
theorem seqRunAux_perm (fuel : Nat) (l : List Task)
    (hfuel : l.length ≤ fuel) (hp : heapProp l) :
    (seqRunAux fuel l).Perm l := by
  induction fuel generalizing l with
  | zero =>
    have : l = [] := List.eq_nil_of_length_eq_zero (by omega)
    rw [this, seqRunAux]
  | succ n ih =>
    rw [seqRunAux]
    by_cases hemp : l.isEmpty
    · rw [if_pos hemp]
      rw [List.isEmpty_iff] at hemp
      rw [hemp]
    · rw [if_neg hemp]
      have hnil : l ≠ [] := fun hc => hemp (by rw [hc]; rfl)
      have hlen := heapPop_length l
      have hl0 : 0 < l.length := List.length_pos.mpr hnil
      have h1 := ih (heapPop l).2 (by omega) (heapPop_prop l hp)
      exact (h1.cons (heapPop l).1).trans (heapPop_perm l hnil)

/-- The dequeue loop of the sequential `run()` emits tasks in
non-decreasing timestamp order. -/
theorem seqRunAux_sorted (fuel : Nat) (l : List Task)
    (hfuel : l.length ≤ fuel) (hp : heapProp l) :
    List.Pairwise (fun a b : Task => a.1 ≤ b.1) (seqRunAux fuel l) := by
  induction fuel generalizing l with
  | zero =>
    rw [seqRunAux]
    exact List.Pairwise.nil
  | succ n ih =>
    rw [seqRunAux]
    by_cases hemp : l.isEmpty
    · rw [if_pos hemp]
      exact List.Pairwise.nil
    · rw [if_neg hemp]
      have hnil : l ≠ [] := fun hc => hemp (by rw [hc]; rfl)
      have hlen := heapPop_length l
      have hl0 : 0 < l.length := List.length_pos.mpr hnil
      refine List.Pairwise.cons ?_ (ih (heapPop l).2 (by omega) (heapPop_prop l hp))
      intro x hx
      have hx2 : x ∈ (heapPop l).2 :=
        (seqRunAux_perm n (heapPop l).2 (by omega) (heapPop_prop l hp)).mem_iff.mp hx
      have hxl : x ∈ l := (heapPop_perm l hnil).mem_iff.mp (List.mem_cons_of_mem _ hx2)
      rw [heapPop_head l hnil]
      exact heapProp_root_le_mem l hp x hxl

/-- Folding pushes onto a queue appends the pushed tasks, up to
permutation. -/
theorem foldl_heapPush_perm (rs : List Task) (h : List Task) :
    (rs.foldl heapPush h).Perm (h ++ rs) := by
  induction rs generalizing h with
  | nil =>
    rw [List.foldl_nil, List.append_nil]
  | cons r rs ih =>
    rw [List.foldl_cons]
    have h1 := ih (heapPush h r)
    have h2 : (heapPush h r ++ rs).Perm ((r :: h) ++ rs) :=
      (heapPush_perm h r).append_right rs
    exact h1.trans (h2.trans List.perm_middle.symm)

/-- Folding pushes preserves the heap invariant. -/
theorem foldl_heapPush_prop (rs : List Task) (h : List Task) (hp : heapProp h) :
    heapProp (rs.foldl heapPush h) := by
  induction rs generalizing h with
  | nil => exact hp
  | cons r rs ih =>
    rw [List.foldl_cons]
    exact ih _ (heapPush_prop h r hp)

/-- The queue built by a sequence of enqueues holds exactly the enqueued
tasks. -/
theorem buildHeap_perm (rs : List Task) : (buildHeap rs).Perm rs := by
  simpa using foldl_heapPush_perm rs []

/-- The queue built by a sequence of enqueues satisfies the heap
invariant. -/
theorem buildHeap_prop (rs : List Task) : heapProp (buildHeap rs) :=
  foldl_heapPush_prop rs [] heapProp_nil

/-- C1 (amended).  Under the sequential back-end, for every sequence of
`enqueueTask` calls followed by `run()`: every enqueued task is invoked
exactly once, and tasks are invoked in non-decreasing timestamp order.
Among tasks with equal timestamps the order is unspecified (the heap is
not stable), so no insertion-order tie-break holds. -/
theorem seq_run_ts_sorted_perm (rs : List Task) :
    (seqRun (buildHeap rs)).Perm rs ∧
    List.Pairwise (fun a b : Task => a.1 ≤ b.1) (seqRun (buildHeap rs)) := by
  constructor
  · exact (seqRunAux_perm _ _ (Nat.le_refl _) (buildHeap_prop rs)).trans (buildHeap_perm rs)
  · exact seqRunAux_sorted _ _ (Nat.le_refl _) (buildHeap_prop rs)

/-! ### The TLS back-end's per-worker `minTs`
(`include/swarm/impl/tls_runtime.h`) -/

/-- Events at a TLS worker: a `tlsTask` dequeue attempt, or an
`enqueueTask` performed by the running task. -/
inductive TlsEvent where
  | deq : TlsEvent
  | enq : Nat → Nat → TlsEvent

/-- A worker's view: the software priority queue and its thread-local
`minTs`. -/
structure TlsState where
  pq : List Task
  minTs : Nat

/-- `tlsTask` (`tls_runtime.h` lines 44-58): if the queue is empty,
return; otherwise `dequeueTop`, then set
`minTs = pq.empty() ? GetTimestamp(t) : pq.minTs()` before invoking the
task.  `pq.minTs()` is `GetTimestamp(PQ::top())` (`swtasks.h` line 48).
The emitted record pairs the value `minTs` held at the moment of the
dequeue with the dequeued task. -/
def tlsDeq (s : TlsState) : TlsState × Option (Nat × Task) :=
  if s.pq.isEmpty then (s, none)
  else
    (⟨(heapPop s.pq).2,
      if (heapPop s.pq).2.isEmpty then (heapPop s.pq).1.1
      else ((heapPop s.pq).2.getD 0 d0).1⟩,
     some (s.minTs, (heapPop s.pq).1))

/-- `swarm::enqueueTask` of the TLS back-end (`tls_runtime.h`
lines 77-81): `if (ts < minTs) minTs = ts;` then push onto `pq`. -/
def tlsEnq (s : TlsState) (ts pay : Nat) : TlsState :=
  ⟨heapPush s.pq (ts, pay), if ts < s.minTs then ts else s.minTs⟩

/-- One TLS worker step. -/
def tlsStep (s : TlsState) : TlsEvent → TlsState × Option (Nat × Task)
  | .deq => tlsDeq s
  | .enq ts pay => (tlsEnq s ts pay, none)

/-- The records of all dequeues along a sequence of worker events. -/
def tlsRun (s : TlsState) : List TlsEvent → List (Nat × Task)
  | [] => []
  | e :: es =>
    match tlsStep s e with
    | (s', none) => tlsRun s' es
    | (s', some r) => r :: tlsRun s' es

/-- `tls_worker` initialisation (`tls_runtime.h` lines 60-65):
`minTs = 0`, empty software queue. -/
def tlsInit : TlsState := ⟨[], 0⟩

/-- The TLS worker invariant: the queue is a heap and `minTs` bounds
every queued timestamp from below. -/
def TlsInv (s : TlsState) : Prop :=
  heapProp s.pq ∧ ∀ x ∈ s.pq, s.minTs ≤ x.1

/-- The front of a non-empty list is a member. -/
theorem getD_zero_mem (l : List Task) (h : l ≠ []) : l.getD 0 d0 ∈ l := by
  cases l with
  | nil => exact absurd rfl h
  | cons a t => exact List.mem_cons_self a t

/-- Both the dequeue path and the enqueue path preserve the TLS worker
invariant. -/
theorem tlsStep_inv (s : TlsState) (e : TlsEvent) (h : TlsInv s) :
    TlsInv (tlsStep s e).1 := by
  cases e with
  | deq =>
    show TlsInv (tlsDeq s).1
    rw [tlsDeq]
    by_cases hemp : s.pq.isEmpty
    · rw [if_pos hemp]
      exact h
    · rw [if_neg hemp]
      refine ⟨heapPop_prop s.pq h.1, ?_⟩
      intro x hx
      by_cases hemp2 : (heapPop s.pq).2.isEmpty
      · rw [List.isEmpty_iff] at hemp2
        rw [hemp2] at hx
        simp at hx
      · rw [if_neg hemp2]
        have hnil2 : (heapPop s.pq).2 ≠ [] := fun hc => hemp2 (by rw [hc]; rfl)
        exact heapProp_root_le_mem _ (heapPop_prop s.pq h.1) x hx
  | enq ts pay =>
    show TlsInv (tlsEnq s ts pay)
    refine ⟨heapPush_prop s.pq (ts, pay) h.1, ?_⟩
    intro x hx
    have hx2 : x ∈ (ts, pay) :: s.pq := (heapPush_perm s.pq (ts, pay)).mem_iff.mp hx
    rw [tlsEnq]
    cases hx2 with
    | head =>
      show (if ts < s.minTs then ts else s.minTs) ≤ ts
      split <;> omega
    | tail _ hmem =>
      have := h.2 x hmem
      show (if ts < s.minTs then ts else s.minTs) ≤ x.1
      split <;> omega

/-- C8.  In the TLS back-end, starting from a fresh worker
(`minTs = 0`, empty queue), for every sequence of dequeue and enqueue
events: at every dequeue, the worker's `minTs` (as held when the dequeue
happens) is at most the timestamp of the dequeued task.  The dequeue
path re-establishes this by updating `minTs` right after `dequeueTop`
and before invocation, and the enqueue path by lowering `minTs` whenever
the new task's timestamp is smaller. -/
theorem tls_minTs_le_dequeued (evs : List TlsEvent) :
    ∀ r ∈ tlsRun tlsInit evs, r.1 ≤ r.2.1 := by
  have hinit : TlsInv tlsInit := ⟨heapProp_nil, by intro x hx; simp [tlsInit] at hx⟩
  generalize hs : tlsInit = s at hinit ⊢
  clear hs
  induction evs generalizing s with
  | nil =>
    intro r hr
    simp [tlsRun] at hr
  | cons e es ih =>
    intro r hr
    rw [tlsRun] at hr
    cases e with
    | deq =>
      by_cases hemp : s.pq.isEmpty
      · have hstep : tlsStep s .deq = (s, none) := by
          show tlsDeq s = (s, none)
          rw [tlsDeq, if_pos hemp]
        rw [hstep] at hr
        exact ih s hinit r hr
      · have hnil : s.pq ≠ [] := fun hc => hemp (by rw [hc]; rfl)
        have hstep : tlsStep s .deq =
            ((⟨(heapPop s.pq).2,
              if (heapPop s.pq).2.isEmpty then (heapPop s.pq).1.1
              else ((heapPop s.pq).2.getD 0 d0).1⟩ : TlsState),
             some (s.minTs, (heapPop s.pq).1)) := by
          show tlsDeq s = _
          rw [tlsDeq, if_neg hemp]
        rw [hstep] at hr
        cases hr with
        | head =>
          show s.minTs ≤ (heapPop s.pq).1.1
          rw [heapPop_head s.pq hnil]
          exact hinit.2 _ (getD_zero_mem s.pq hnil)
        | tail _ hmem =>
          have hinv' := tlsStep_inv s .deq hinit
          rw [show (tlsStep s TlsEvent.deq).1 = (tlsDeq s).1 from rfl] at hinv'
          rw [show (tlsDeq s).1 = _ from congrArg Prod.fst hstep] at hinv'
          exact ih _ hinv' r hmem
    | enq ts pay =>
      have hstep : tlsStep s (.enq ts pay) = (tlsEnq s ts pay, none) := rfl
      rw [hstep] at hr
      have hinv' := tlsStep_inv s (.enq ts pay) hinit
      exact ih _ hinv' r hr

/-- Closed witness for C8: enqueue a task at `ts = 5`, then dequeue it;
the recorded `minTs` at the dequeue is `0 ≤ 5`. -/
theorem tls_minTs_le_dequeued_witness :
    (0, ((5 : Nat), (0 : Nat))) ∈ tlsRun tlsInit [.enq 5 0, .deq] ∧
    (0 : Nat) ≤ 5 :=
  ⟨by decide, tls_minTs_le_dequeued [.enq 5 0, .deq] (0, (5, 0)) (by decide)⟩

/-! ### The spill / requeue protocol (spillers header, `src/unnamed/part_001`) -/

/-- `UINT64_MAX`, the sentinel both for "no task removed" and "no
timestamp". -/
def UINT64_MAX : Nat := 2 ^ 64 - 1

/-- One hardware task as reported by the simulator's remove-task magic
op in `__removeOne`: the timestamp, the packed
`[48-bit task pointer | 16-bit persistent flags]` word, the hint, and
the `PLS_APP_MAX_ARGS` argument registers. -/
structure HwTask where
  ts : Nat
  ptrFlags : Nat
  hint : Nat
  args : List Nat
deriving DecidableEq

/-- The second extraction loop of `spiller_impl` (entered after a
non-timestamped task was removed; the remove op is bounded to
`maxTs = 0`).  Each successful `__removeOne` writes the task into the
next descriptor slot and ANDs its packed word into `requeuerFlags`; a
zero `taskPtrAndFlags` stops extraction, and a `UINT64_MAX` timestamp
stops the loop after the AND but leaves the slot outside the block's
final `size`.  A timestamped (`!nonTimestamped`) extraction drives
`minTs` to `0`.  Returns (descriptors counted in `size`, requeuerFlags,
minTs). -/
def spillLoop2 : List HwTask → Nat → Nat → Nat → List HwTask × Nat × Nat
  | _, 0, rf, minTs => ([], rf, minTs)
  | [], _ + 1, rf, minTs => ([], rf, minTs)
  | t :: rest, slots + 1, rf, minTs =>
    if t.ptrFlags = 0 then ([], rf, minTs)
    else if t.ts = UINT64_MAX then ([], rf &&& t.ptrFlags, minTs)
    else
      (t :: (spillLoop2 rest slots (rf &&& t.ptrFlags)
          (if t.ptrFlags.testBit 9 then minTs else 0)).1,
       (spillLoop2 rest slots (rf &&& t.ptrFlags)
          (if t.ptrFlags.testBit 9 then minTs else 0)).2)

/-- The first extraction loop of `spiller_impl`: a zero
`taskPtrAndFlags` stops extraction with nothing written; a
`NOTIMESTAMP` task is written and counted, after which extraction
continues in `spillLoop2` one slot further (`task = task + 1`); a
`UINT64_MAX` timestamp stops the loop after the AND, the slot staying
outside `size`; otherwise `minTs` is overwritten with the removed task's
timestamp (which precedes or equals it). -/
def spillLoop1 : List HwTask → Nat → Nat → Nat → List HwTask × Nat × Nat
  | _, 0, rf, minTs => ([], rf, minTs)
  | [], _ + 1, rf, minTs => ([], rf, minTs)
  | t :: rest, slots + 1, rf, minTs =>
    if t.ptrFlags = 0 then ([], rf, minTs)
    else if t.ptrFlags.testBit 9 then
      (t :: (spillLoop2 rest slots (rf &&& t.ptrFlags) minTs).1,
       (spillLoop2 rest slots (rf &&& t.ptrFlags) minTs).2)
    else if t.ts = UINT64_MAX then ([], rf &&& t.ptrFlags, minTs)
    else
      (t :: (spillLoop1 rest slots (rf &&& t.ptrFlags) t.ts).1,
       (spillLoop1 rest slots (rf &&& t.ptrFlags) t.ts).2)

/-- `spiller_impl<isFrame>` on a hardware stream with capacity `n`:
`requeuerFlags` starts at `NOTIMESTAMP | CANTSPEC` for ordinary spills
and `0` for frame spills; `minTs` starts at `UINT64_MAX`.  Returns the
descriptor block contents (`tds[0..size)`), the accumulated
`requeuerFlags`, and `minTs`. -/
def spiller_impl (isFrame : Bool) (stream : List HwTask) (n : Nat) :
    List HwTask × Nat × Nat :=
  spillLoop1 stream n (if isFrame then 0 else NOTIMESTAMP ||| CANTSPEC) UINT64_MAX

/-- A requeuer-task enqueue as issued by `spiller_impl`'s tail:
timestamp and `EnqFlags` word. -/
structure SpillEnq where
  ts : Nat
  flags : Nat
deriving DecidableEq

/-- The enqueue decision at the end of `spiller_impl`: if at least one
task was extracted, enqueue a single requeuer with flags
`SAMEHINT | NONSERIALHINT | NOHASH | PRODUCER | REQUEUER | requeuerFlags`
(ordinary) or `… | CANTSPEC` (frame, at the fixed timestamp 42);
otherwise free the block and enqueue nothing. -/
def spillerEnqueue (isFrame : Bool) (stream : List HwTask) (n : Nat) : Option SpillEnq :=
  if 0 < (spiller_impl isFrame stream n).1.length then
    if isFrame then
      some ⟨42, SAMEHINT ||| NONSERIALHINT ||| NOHASH ||| PRODUCER ||| REQUEUER ||| CANTSPEC⟩
    else
      some ⟨(spiller_impl isFrame stream n).2.2,
        SAMEHINT ||| NONSERIALHINT ||| NOHASH ||| PRODUCER ||| REQUEUER |||
          (spiller_impl isFrame stream n).2.1⟩
  else none

/-- The 16-bit arithmetic shift right used by `__enqueueOrYield` to
recover the task pointer from the packed word (`sar $16, %rcx`),
sign-extending bit 63 over the top 16 bits of the 64-bit result. -/
def sar16 (x : Nat) : Nat :=
  if x.testBit 63 then (x >>> 16) ||| (65535 <<< 48) else x >>> 16

/-- A task enqueue issued by the requeuer for one descriptor. -/
structure ReqEnq where
  taskPtr : Nat
  ts : Nat
  hint : Nat
  args : List Nat
  flags : Nat
deriving DecidableEq

/-- `__enqueueOrYield<isFrame>`: re-enqueue one descriptor with flags
`YIELDIFFULL` plus the descriptor's lower 16 (persistent) flag bits
(plus `PARENTDOMAIN` for frame requeuers), the stored timestamp, hint
and argument words, and the pointer recovered by the arithmetic
shift. -/
def __enqueueOrYield (isFrame : Bool) (d : HwTask) : ReqEnq :=
  { taskPtr := sar16 d.ptrFlags,
    ts := d.ts,
    hint := d.hint,
    args := d.args,
    flags := (YIELDIFFULL ||| (d.ptrFlags &&& 65535)) |||
      (if isFrame then PARENTDOMAIN else 0) }

/-- `requeuer_impl<isFrame>`: walk the descriptor block from
`tds[size-1]` down to `tds[0]`, re-enqueueing each descriptor once,
then free the block. -/
def requeuer_impl (isFrame : Bool) (descs : List HwTask) : List ReqEnq :=
  (descs.reverse).map (__enqueueOrYield isFrame)

/-- `testBit` of the 16-bit mask. -/
theorem testBit_ffff (i : Nat) : (65535 : Nat).testBit i = decide (i < 16) := by
  rw [show (65535 : Nat) = 2 ^ 16 - 1 from by norm_num, Nat.testBit_two_pow_sub_one]

/-- Re-enqueueing a descriptor preserves its persistent
(lower-16-bit) flags exactly: `YIELDIFFULL` (bit 20) and `PARENTDOMAIN`
(bit 21) are transient. -/
theorem enqueueOrYield_persistent (isFrame : Bool) (d : HwTask) :
    (__enqueueOrYield isFrame d).flags &&& 65535 = d.ptrFlags &&& 65535 := by
  apply Nat.eq_of_testBit_eq
  intro i
  show ((((YIELDIFFULL ||| (d.ptrFlags &&& 65535)) |||
    (if isFrame then PARENTDOMAIN else 0)) &&& 65535)).testBit i =
    (d.ptrFlags &&& 65535).testBit i
  have hY : (YIELDIFFULL : Nat).testBit i = decide (20 = i) := by
    rw [show (YIELDIFFULL : Nat) = 2 ^ 20 from by decide, Nat.testBit_two_pow]
  have hP : (if isFrame then PARENTDOMAIN else 0).testBit i =
      (isFrame && decide (21 = i)) := by
    cases isFrame
    · simp [Nat.zero_testBit]
    · show (PARENTDOMAIN : Nat).testBit i = (true && decide (21 = i))
      rw [show (PARENTDOMAIN : Nat) = 2 ^ 21 from by decide, Nat.testBit_two_pow]
      simp
  simp only [Nat.testBit_and, Nat.testBit_or, testBit_ffff, hY, hP]
  by_cases hi : i < 16
  · have h20 : ¬ (20 = i) := by omega
    have h21 : ¬ (21 = i) := by omega
    simp [hi, h20, h21]
  · simp [hi]

/-- `requeuerFlags` after the second extraction loop is the AND-fold of
the packed words of the counted descriptors over the incoming value. -/
theorem spillLoop2_rf (stream : List HwTask) (slots rf m : Nat)
    (hwf : ∀ t ∈ stream, t.ptrFlags ≠ 0 → t.ts ≠ UINT64_MAX) :
    (spillLoop2 stream slots rf m).2.1 =
      ((spillLoop2 stream slots rf m).1).foldl (fun a t => a &&& t.ptrFlags) rf := by
  induction stream generalizing slots rf m with
  | nil => cases slots <;> rfl
  | cons t rest ih =>
    cases slots with
    | zero => rfl
    | succ k =>
      rw [spillLoop2]
      by_cases h0 : t.ptrFlags = 0
      · rw [if_pos h0]
        rfl
      · have hts := hwf t (List.mem_cons_self t rest) h0
        rw [if_neg h0, if_neg hts]
        simp only [List.foldl_cons]
        exact ih k (rf &&& t.ptrFlags) _ (fun u hu => hwf u (List.mem_cons_of_mem t hu))

/-- `requeuerFlags` after the first extraction loop is the AND-fold of
the packed words of the counted descriptors over the initial value. -/
theorem spillLoop1_rf (stream : List HwTask) (slots rf m : Nat)
    (hwf : ∀ t ∈ stream, t.ptrFlags ≠ 0 → t.ts ≠ UINT64_MAX) :
    (spillLoop1 stream slots rf m).2.1 =
      ((spillLoop1 stream slots rf m).1).foldl (fun a t => a &&& t.ptrFlags) rf := by
  induction stream generalizing slots rf m with
  | nil => cases slots <;> rfl
  | cons t rest ih =>
    cases slots with
    | zero => rfl
    | succ k =>
      rw [spillLoop1]
      by_cases h0 : t.ptrFlags = 0
      · rw [if_pos h0]
        rfl
      · have hts := hwf t (List.mem_cons_self t rest) h0
        rw [if_neg h0]
        by_cases h9 : t.ptrFlags.testBit 9
        · rw [if_pos h9]
          simp only [List.foldl_cons]
          exact spillLoop2_rf rest k (rf &&& t.ptrFlags) m
            (fun u hu => hwf u (List.mem_cons_of_mem t hu))
        · rw [if_neg h9, if_neg hts]
          simp only [List.foldl_cons]
          exact ih k (rf &&& t.ptrFlags) t.ts (fun u hu => hwf u (List.mem_cons_of_mem t hu))

/-- A bit of an AND-fold is set iff it is set in the seed and in every
folded word. -/
theorem foldl_and_testBit (g : HwTask → Nat) (ds : List HwTask) (rf k : Nat) :
    (ds.foldl (fun a t => a &&& g t) rf).testBit k =
      (rf.testBit k && ds.all (fun t => (g t).testBit k)) := by
  induction ds generalizing rf with
  | nil => simp
  | cons t rest ih =>
    rw [List.foldl_cons, ih, Nat.testBit_and, List.all_cons]
    cases rf.testBit k <;> cases (g t).testBit k <;> simp

/-- With a seed inside the 16-bit mask, AND-folding the packed words
equals AND-folding just their persistent (lower-16) flag bits. -/
theorem foldl_and_mask (ds : List HwTask) (rf : Nat) (hrf : rf &&& 65535 = rf) :
    ds.foldl (fun a t => a &&& t.ptrFlags) rf =
      ds.foldl (fun a t => a &&& (t.ptrFlags &&& 65535)) rf := by
  induction ds generalizing rf with
  | nil => rfl
  | cons t rest ih =>
    have hbit : ∀ i, ¬ i < 16 → rf.testBit i = false := by
      intro i hi
      have h := congrArg (fun z => z.testBit i) hrf
      simp only [Nat.testBit_and, testBit_ffff] at h
      rw [← h]
      simp [hi]
    have h1 : rf &&& t.ptrFlags = rf &&& (t.ptrFlags &&& 65535) := by
      apply Nat.eq_of_testBit_eq
      intro i
      simp only [Nat.testBit_and, testBit_ffff]
      by_cases hi : i < 16
      · simp [hi]
      · simp [hi, hbit i hi]
    have h2 : (rf &&& t.ptrFlags) &&& 65535 = rf &&& t.ptrFlags := by
      apply Nat.eq_of_testBit_eq
      intro i
      simp only [Nat.testBit_and, testBit_ffff]
      by_cases hi : i < 16
      · simp [hi]
      · simp [hi, hbit i hi]
    rw [List.foldl_cons, List.foldl_cons, ← h1]
    exact ih (rf &&& t.ptrFlags) h2

/-- C3.  Spill round-trip: every task the spiller evicts into the
descriptor block is re-enqueued (exactly as one of the requeuer's
enqueues), and the re-enqueued task carries the same timestamp, hint,
argument words and persistent (lower-16-bit) flags as the evicted
task. -/
theorem spill_roundtrip (stream : List HwTask) (n : Nat) (d : HwTask)
    (hd : d ∈ (spiller_impl false stream n).1) :
    __enqueueOrYield false d ∈ requeuer_impl false (spiller_impl false stream n).1 ∧
    (__enqueueOrYield false d).ts = d.ts ∧
    (__enqueueOrYield false d).hint = d.hint ∧
    (__enqueueOrYield false d).args = d.args ∧
    (__enqueueOrYield false d).flags &&& 65535 = d.ptrFlags &&& 65535 := by
  refine ⟨?_, rfl, rfl, rfl, enqueueOrYield_persistent false d⟩
  rw [requeuer_impl]
  exact List.mem_map_of_mem _ (List.mem_reverse.mpr hd)

/-- Closed witness for C3 at a one-task spill: the descriptor with
`ts = 3`, packed word `5 · 2^16 + CANTSPEC`, hint `7`, args `[1, 2]`
round-trips. -/
theorem spill_roundtrip_witness :
    ((⟨3, 327808, 7, [1, 2]⟩ : HwTask) ∈
      (spiller_impl false [⟨3, 327808, 7, [1, 2]⟩] 1).1) ∧
    (__enqueueOrYield false ⟨3, 327808, 7, [1, 2]⟩ ∈
      requeuer_impl false (spiller_impl false [⟨3, 327808, 7, [1, 2]⟩] 1).1 ∧
    (__enqueueOrYield false ⟨3, 327808, 7, [1, 2]⟩).ts = (3 : Nat) ∧
    (__enqueueOrYield false ⟨3, 327808, 7, [1, 2]⟩).hint = (7 : Nat) ∧
    (__enqueueOrYield false ⟨3, 327808, 7, [1, 2]⟩).args = [1, 2] ∧
    (__enqueueOrYield false ⟨3, 327808, 7, [1, 2]⟩).flags &&& 65535 =
      (327808 : Nat) &&& 65535) :=
  ⟨by decide, spill_roundtrip [⟨3, 327808, 7, [1, 2]⟩] 1 ⟨3, 327808, 7, [1, 2]⟩ (by decide)⟩

/-- C4.  A non-frame spill that extracts at least one task enqueues its
requeuer with flags `SAMEHINT | NONSERIALHINT | NOHASH | PRODUCER |
REQUEUER` OR-ed with the AND-fold, seeded at `NOTIMESTAMP | CANTSPEC`,
of the persistent flags of every extracted task; hence the requeuer
carries `NOTIMESTAMP` (bit 9) iff all extracted tasks do, and `CANTSPEC`
(bit 7) iff all do.  (The hardware's remove op reports `UINT64_MAX` only
when no task is removed, whence the well-formedness hypothesis.) -/
theorem spiller_requeuer_flags (stream : List HwTask) (n : Nat)
    (hwf : ∀ t ∈ stream, t.ptrFlags ≠ 0 → t.ts ≠ UINT64_MAX)
    (hne : (spiller_impl false stream n).1 ≠ []) :
    spillerEnqueue false stream n = some
      ⟨(spiller_impl false stream n).2.2,
       SAMEHINT ||| NONSERIALHINT ||| NOHASH ||| PRODUCER ||| REQUEUER |||
         ((spiller_impl false stream n).1.foldl
           (fun a t => a &&& (t.ptrFlags &&& 65535)) (NOTIMESTAMP ||| CANTSPEC))⟩ ∧
    (SAMEHINT ||| NONSERIALHINT ||| NOHASH ||| PRODUCER ||| REQUEUER |||
       ((spiller_impl false stream n).1.foldl
         (fun a t => a &&& (t.ptrFlags &&& 65535)) (NOTIMESTAMP ||| CANTSPEC))).testBit 9 =
      (spiller_impl false stream n).1.all (fun t => t.ptrFlags.testBit 9) ∧
    (SAMEHINT ||| NONSERIALHINT ||| NOHASH ||| PRODUCER ||| REQUEUER |||
       ((spiller_impl false stream n).1.foldl
         (fun a t => a &&& (t.ptrFlags &&& 65535)) (NOTIMESTAMP ||| CANTSPEC))).testBit 7 =
      (spiller_impl false stream n).1.all (fun t => t.ptrFlags.testBit 7) := by
  have hrf : (spiller_impl false stream n).2.1 =
      ((spiller_impl false stream n).1.foldl
        (fun a t => a &&& (t.ptrFlags &&& 65535)) (NOTIMESTAMP ||| CANTSPEC)) := by
    show (spillLoop1 stream n (NOTIMESTAMP ||| CANTSPEC) UINT64_MAX).2.1 = _
    rw [spillLoop1_rf stream n (NOTIMESTAMP ||| CANTSPEC) UINT64_MAX hwf]
    exact foldl_and_mask _ _ (by decide)
  have hbit : ∀ k, k < 16 → ((NOTIMESTAMP ||| CANTSPEC : Nat).testBit k = true) →
      (SAMEHINT ||| NONSERIALHINT ||| NOHASH ||| PRODUCER ||| REQUEUER : Nat).testBit k = false →
      (SAMEHINT ||| NONSERIALHINT ||| NOHASH ||| PRODUCER ||| REQUEUER |||
        ((spiller_impl false stream n).1.foldl
          (fun a t => a &&& (t.ptrFlags &&& 65535)) (NOTIMESTAMP ||| CANTSPEC))).testBit k =
      (spiller_impl false stream n).1.all (fun t => t.ptrFlags.testBit k) := by
    intro k hk hseed hbase
    rw [Nat.testBit_or, hbase, Bool.false_or,
      foldl_and_testBit (fun t => t.ptrFlags &&& 65535) _ _ k, hseed, Bool.true_and]
    induction (spiller_impl false stream n).1 with
    | nil => rfl
    | cons t rest ih =>
      rw [List.all_cons, List.all_cons, ih, Nat.testBit_and, testBit_ffff]
      simp [hk]
  refine ⟨?_, hbit 9 (by omega) (by decide) (by decide), hbit 7 (by omega) (by decide) (by decide)⟩
  rw [spillerEnqueue, if_pos (List.length_pos.mpr hne), if_neg (by decide)]
  rw [hrf]

/-- Closed witness for C4: spilling two `CANTSPEC` tasks (one also
`NOTIMESTAMP`) yields a requeuer whose flags keep `CANTSPEC` and drop
`NOTIMESTAMP`. -/
theorem spiller_requeuer_flags_witness :
    (∀ t ∈ ([⟨4, 65664, 1, []⟩, ⟨0, 131712, 2, []⟩] : List HwTask),
      t.ptrFlags ≠ 0 → t.ts ≠ UINT64_MAX) ∧
    (spiller_impl false [⟨4, 65664, 1, []⟩, ⟨0, 131712, 2, []⟩] 2).1 ≠ [] ∧
    spillerEnqueue false [⟨4, 65664, 1, []⟩, ⟨0, 131712, 2, []⟩] 2 = some
      ⟨(spiller_impl false [⟨4, 65664, 1, []⟩, ⟨0, 131712, 2, []⟩] 2).2.2,
       SAMEHINT ||| NONSERIALHINT ||| NOHASH ||| PRODUCER ||| REQUEUER |||
         ((spiller_impl false [⟨4, 65664, 1, []⟩, ⟨0, 131712, 2, []⟩] 2).1.foldl
           (fun a t => a &&& (t.ptrFlags &&& 65535)) (NOTIMESTAMP ||| CANTSPEC))⟩ :=
  ⟨by decide, by decide,
    (spiller_requeuer_flags [⟨4, 65664, 1, []⟩, ⟨0, 131712, 2, []⟩] 2
      (by decide) (by decide)).1⟩

/-- C5.  A spiller that extracts zero tasks enqueues nothing — the
descriptor block is freed and no requeuer task is created — and
conversely a requeuer is enqueued exactly when at least one task was
extracted. -/
theorem spiller_zero_no_requeuer (isFrame : Bool) (stream : List HwTask) (n : Nat) :
    spillerEnqueue isFrame stream n = none ↔ (spiller_impl isFrame stream n).1 = [] := by
  constructor
  · intro hnone
    by_contra hne
    rw [spillerEnqueue, if_pos (List.length_pos.mpr hne)] at hnone
    cases isFrame <;> simp at hnone
  · intro hnil
    rw [spillerEnqueue, if_neg (by rw [hnil]; simp)]

/-! ### The `enqueue_all` tree engine (`include/swarm/impl/enqueue_all.h`) -/

/-- Modelled from the spec: `max_children` is defined in
`impl/limits.h`, which is not in the source tree.  Spec §4.7 gives the
fanout `k ∈ {2, 4, 8}` with `k = max_children` when
`len > max_children²/2`, and the comments in `enqueue_all.h`
(fanout 8 at 1024 elements, 4 at 17 elements, 2 at 10 elements) pin
`max_children = 8`. -/
def max_children : Nat := 8

/-- Fuelled binary logarithm (64 bits suffice for the runtime's
`uint64_t` values). -/
def log2F : Nat -> Nat -> Nat
  | 0, _ => 0
  | fuel + 1, n => if n >= 2 then log2F fuel (n / 2) + 1 else 0

/-- `swarm::ilog2` (`algorithm.h` line 104): `63 - clzl(i)`, the floor
base-2 logarithm for `i >= 1`. -/
def ilog2 (i : Nat) : Nat := log2F 64 i

/-- `__enqueue_lg_fanout` (`enqueue_all.h` lines 112-126), wide
expansion: with `T = max_children * max_children / 2`, ranges longer
than `T` use the full fanout, longer than `T/2` use half, else 2. -/
def __enqueue_lg_fanout (n : Nat) : Nat :=
  if n > max_children * max_children / 2 then ilog2 max_children
  else if n > max_children * max_children / 2 / 2 then ilog2 (max_children / 2)
  else ilog2 2

/-- The set of iterator positions (as offsets) at which `__enqueuer`
(`enqueue_all.h` lines 130-160) invokes the enqueue lambda, collected in
tree order: ranges of at most `max_children` elements are handled
serially by `__enqueue_for_each`; larger ranges split into
`2^lgfanout` children -- the first `2^lgfanout - 1` of size
`(last-first) >> lgfanout` and the last child covering the remainder --
each recursively processed.  Fuel-indexed; any fuel at least the range
length runs the recursion to completion. -/
def __enqueuerCalls : Nat -> Nat -> Nat -> List Nat
  | 0, _, _ => []
  | fuel + 1, first, last =>
    if last - first <= max_children then List.range' first (last - first)
    else
      ((List.range ((1 <<< __enqueue_lg_fanout (last - first)) - 1)).map
        (fun i => __enqueuerCalls fuel
          (first + i * ((last - first) >>> __enqueue_lg_fanout (last - first)))
          (first + (i + 1) * ((last - first) >>> __enqueue_lg_fanout (last - first))))).flatten
      ++ __enqueuerCalls fuel
          (first + ((1 <<< __enqueue_lg_fanout (last - first)) - 1) *
            ((last - first) >>> __enqueue_lg_fanout (last - first)))
          last

/-- The positions at which `enqueue_all` 's top-level dispatch
(`__EnqueueAll::operator()`, `enqueue_all.h` lines 279-301) invokes the
enqueue lambda: small ranges run serially; otherwise the range is split
at the midpoint (when `MaxBaseEnqs > 1`) into two `__enqueuer` tasks. -/
def enqueue_allCalls (maxBaseEnqs : Nat) (first last : Nat) : List Nat :=
  if last - first <= maxBaseEnqs then List.range' first (last - first)
  else if 1 < maxBaseEnqs then
    __enqueuerCalls (last - first) first (first + (last - first) / 2) ++
    __enqueuerCalls (last - first) (first + (last - first) / 2) last
  else
    __enqueuerCalls (last - first) first last

/-- Step-1 `range'` concatenation. -/
theorem range1_append (s n m : Nat) :
    List.range' s n ++ List.range' (s + n) m = List.range' s (n + m) := by
  have h := List.range'_append s n m 1
  rw [Nat.one_mul] at h
  rw [h, Nat.add_comm m n]

/-- Joining `m` consecutive ranges of width `c`. -/
theorem join_ranges (c : Nat) (m : Nat) (first : Nat) :
    ((List.range m).map (fun i => List.range' (first + i * c) c)).flatten =
      List.range' first (m * c) := by
  induction m with
  | zero => simp
  | succ m ih =>
    rw [List.range_succ, List.map_append, List.flatten_append, ih]
    simp only [List.map_cons, List.map_nil, List.flatten_cons, List.flatten_nil,
      List.append_nil]
    rw [range1_append first (m * c) c]
    rw [show (m + 1) * c = m * c + c from by ring]

/-- Two consecutive ranges ending at `last` cover `[first, last)`. -/
theorem split_cover (first last k c : Nat) (hk : 2 <= k) (hc : 1 <= c)
    (hkc : k * c <= last - first) :
    List.range' first ((k - 1) * c) ++
      List.range' (first + (k - 1) * c) (last - (first + (k - 1) * c)) =
    List.range' first (last - first) := by
  have h1 : (k - 1) * c = k * c - c := by rw [Nat.sub_one_mul]
  have h2 : c <= k * c := by
    calc c = 1 * c := (Nat.one_mul c).symm
      _ <= k * c := Nat.mul_le_mul_right c (by omega)
  rw [range1_append]
  congr 1
  omega

/-- `__enqueuer` reaches every iterator position in `[first, last)`
exactly once: the in-order list of enqueue-lambda invocations is exactly
the range. -/
theorem enqueuerCalls_eq_range (fuel : Nat) :
    forall first last : Nat, last - first <= fuel ->
    __enqueuerCalls fuel first last = List.range' first (last - first) := by
  induction fuel with
  | zero =>
    intro first last h
    rw [__enqueuerCalls, show last - first = 0 from by omega]
    rfl
  | succ f ih =>
    intro first last h
    rw [__enqueuerCalls]
    by_cases hbase : last - first <= max_children
    · rw [if_pos hbase]
    · rw [if_neg hbase]
      have hn : 8 < last - first := by
        simp only [max_children] at hbase
        omega
      have hlg1 : 1 <= __enqueue_lg_fanout (last - first) := by
        rw [__enqueue_lg_fanout]
        split
        · decide
        · split <;> decide
      have hlg3 : __enqueue_lg_fanout (last - first) <= 3 := by
        rw [__enqueue_lg_fanout]
        split
        · decide
        · split <;> decide
      have hpow : 2 ^ __enqueue_lg_fanout (last - first) <= 8 := by
        calc 2 ^ __enqueue_lg_fanout (last - first) <= 2 ^ 3 :=
              Nat.pow_le_pow_right (by omega) hlg3
          _ = 8 := by norm_num
      have hpow1 : 2 <= 2 ^ __enqueue_lg_fanout (last - first) := by
        calc (2 : Nat) = 2 ^ 1 := by norm_num
          _ <= 2 ^ __enqueue_lg_fanout (last - first) := Nat.pow_le_pow_right (by omega) hlg1
      have hcdef : (last - first) >>> __enqueue_lg_fanout (last - first) =
          (last - first) / 2 ^ __enqueue_lg_fanout (last - first) :=
        Nat.shiftRight_eq_div_pow _ _
      have hkdef : (1 <<< __enqueue_lg_fanout (last - first)) =
          2 ^ __enqueue_lg_fanout (last - first) :=
        Nat.one_shiftLeft _
      have hk2 : 2 <= (1 <<< __enqueue_lg_fanout (last - first)) := by
        rw [hkdef]
        exact hpow1
      have hc1 : 1 <= (last - first) >>> __enqueue_lg_fanout (last - first) := by
        rw [hcdef]
        exact Nat.one_le_div_iff (by omega) |>.mpr (by omega)
      have hclt : (last - first) >>> __enqueue_lg_fanout (last - first) < last - first := by
        rw [hcdef]
        exact Nat.div_lt_self (by omega) (by omega)
      have hkc : (1 <<< __enqueue_lg_fanout (last - first)) *
          ((last - first) >>> __enqueue_lg_fanout (last - first)) <= last - first := by
        rw [hcdef, hkdef, Nat.mul_comm]
        exact Nat.div_mul_le_self _ _
      have hone : 1 <= ((1 <<< __enqueue_lg_fanout (last - first)) - 1) *
          ((last - first) >>> __enqueue_lg_fanout (last - first)) := by
        have hm := Nat.mul_le_mul
          (show 1 <= (1 <<< __enqueue_lg_fanout (last - first)) - 1 from by omega) hc1
        simpa using hm
      have hsub : ((1 <<< __enqueue_lg_fanout (last - first)) - 1) *
          ((last - first) >>> __enqueue_lg_fanout (last - first)) <=
          (1 <<< __enqueue_lg_fanout (last - first)) *
          ((last - first) >>> __enqueue_lg_fanout (last - first)) :=
        Nat.mul_le_mul_right _ (by omega)
      have hchildren : forall i, i ∈ List.range ((1 <<< __enqueue_lg_fanout (last - first)) - 1) ->
          __enqueuerCalls f
            (first + i * ((last - first) >>> __enqueue_lg_fanout (last - first)))
            (first + (i + 1) * ((last - first) >>> __enqueue_lg_fanout (last - first))) =
          List.range'
            (first + i * ((last - first) >>> __enqueue_lg_fanout (last - first)))
            ((last - first) >>> __enqueue_lg_fanout (last - first)) := by
        intro i hi
        have hmul : (i + 1) * ((last - first) >>> __enqueue_lg_fanout (last - first)) =
            i * ((last - first) >>> __enqueue_lg_fanout (last - first)) +
            ((last - first) >>> __enqueue_lg_fanout (last - first)) := by ring
        have hsz : (first + (i + 1) * ((last - first) >>> __enqueue_lg_fanout (last - first))) -
            (first + i * ((last - first) >>> __enqueue_lg_fanout (last - first))) =
            (last - first) >>> __enqueue_lg_fanout (last - first) := by omega
        rw [ih _ _ (by omega), hsz]
      rw [List.map_eq_map_iff.mpr hchildren, join_ranges]
      rw [ih _ _ (by omega)]
      exact split_cover first last _ _ hk2 hc1 hkc

/-- C6.  `enqueue_all(first, last, enq, ts)` applies the enqueue lambda
exactly once to each iterator position in `[first, last)` (for any
`MaxBaseEnqs` configuration), and for an empty range it never invokes
the lambda. -/
theorem enqueue_all_exactly_once (m first last i : Nat) :
    (enqueue_allCalls m first last).count i =
      (if first ≤ i ∧ i < last then 1 else 0) ∧
    enqueue_allCalls m first first = [] := by
  have hall : enqueue_allCalls m first last = List.range' first (last - first) := by
    rw [enqueue_allCalls]
    by_cases hbase : last - first ≤ m
    · rw [if_pos hbase]
    · rw [if_neg hbase]
      by_cases hm : 1 < m
      · rw [if_pos hm]
        have h1 := enqueuerCalls_eq_range (last - first) first (first + (last - first) / 2)
          (by omega)
        have h2 := enqueuerCalls_eq_range (last - first) (first + (last - first) / 2) last
          (by omega)
        rw [h1, h2, show (first + (last - first) / 2) - first = (last - first) / 2 from by omega,
          show last - (first + (last - first) / 2) =
            (last - first) - (last - first) / 2 from by omega,
          range1_append,
          show (last - first) / 2 + ((last - first) - (last - first) / 2) =
            last - first from by omega]
      · rw [if_neg hm, enqueuerCalls_eq_range (last - first) first last (Nat.le_refl _)]
  constructor
  · rw [hall]
    by_cases hmem : first ≤ i ∧ i < last
    · rw [if_pos hmem]
      exact List.count_eq_one_of_mem (List.nodup_range' _ _)
        (List.mem_range'_1.mpr ⟨hmem.1, by omega⟩)
    · rw [if_neg hmem]
      rw [List.count_eq_zero]
      intro hc
      have := List.mem_range'_1.mp hc
      omega
  · have h0 := hall
    rw [enqueue_allCalls, if_pos (by omega : first - first ≤ m)]
    rw [show first - first = 0 from by omega]
    rfl

/-- Block size of the reducer (reduce.h blockSize): max(elementsPerLine, 2). -/
def blockSize (epl : Nat) : Nat := max epl 2

/-- Number of reduction tasks (reduce.h Reducer ctor): 1 + (distance(first,last) - 1) / blockSize.
For an empty range the signed division (0-1)/bs truncates toward zero to 0, matching Nat
subtraction 0 - 1 = 0; so numTasks = 1 there as in the C++ code. -/
def numTasks (bs len : Nat) : Nat := 1 + (len - 1) / bs

/-- Elements covered by block b: blocks 0..numTasks-2 take blockSize elements starting at
b*blockSize (Reducer::accumulateBlock); the last block runs to the end of the range
(the direct swarm::enqueue of Reducer::accumulate with end = last). -/
def blockElems {α : Type} (bs : Nat) (xs : List α) (b : Nat) : List α :=
  if b + 1 = numTasks bs xs.length then xs.drop (b * bs)
  else (xs.drop (b * bs)).take bs

/-- Value computed by block b's accumulate task: std::accumulate(begin, end, identity, o),
a left fold seeded with the identity element. -/
def blockVal {α : Type} (op : α → α → α) (idty : α) (bs : Nat) (xs : List α) (b : Nat) : α :=
  (blockElems bs xs b).foldl op idty

/-- Reducer::updateIntermediate: intermediates[tid] = o(intermediates[tid], value). -/
def updateIntermediate {α : Type} (op : α → α → α) (idty : α)
    (inter : List α) (t : Nat) (v : α) : List α :=
  inter.set t (op (inter.getD t idty) v)

/-- Reducer::collapse: accumulator starts at intermediates[0] and left-folds the remaining
per-thread intermediates in index order (the INFLIGHT-12 unrolling in the source consumes
the same elements in the same order, so it is the same left fold). -/
def collapse {α : Type} (op : α → α → α) (idty : α) : List α → α
  | [] => idty
  | h :: tl => tl.foldl op h

/-- End-to-end value delivered to the reduce callback, and the callback timestamp.
numTasks = 1: Reducer::operator() accumulates [first,last) directly and enqueues cb at cbts.
Otherwise the per-thread intermediates start at identity (swarm::fill), each scheduled
accumulate task (sched lists (tid, block) pairs in execution order of the updateIntermediate
tasks) folds its block value into intermediates[tid], and collapse's result is passed to
finish, which enqueues cb at cbts. -/
def reducerResult {α : Type} (op : α → α → α) (idty : α) (T bs : Nat) (xs : List α)
    (sched : List (Nat × Nat)) (cbts : Nat) : α × Nat :=
  if numTasks bs xs.length = 1 then (xs.foldl op idty, cbts)
  else
    (collapse op idty
      (sched.foldl
        (fun it p => updateIntermediate op idty it p.1 (blockVal op idty bs xs p.2))
        (List.replicate T idty)),
     cbts)

theorem foldl_op_left {α : Type} (op : α → α → α)
    (hassoc : ∀ a b c, op (op a b) c = op a (op b c)) (a : α) :
    ∀ (l : List α) (b : α), op a (l.foldl op b) = l.foldl op (op a b) := by
  intro l
  induction l with
  | nil => intro b; rfl
  | cons x t ih =>
    intro b
    rw [List.foldl_cons, List.foldl_cons, ih, hassoc]

theorem foldl_pull_right {α : Type} (op : α → α → α)
    (hassoc : ∀ a b c, op (op a b) c = op a (op b c))
    (hcomm : ∀ a b, op a b = op b a) (v : α) :
    ∀ (l : List α) (a : α), l.foldl op (op a v) = op (l.foldl op a) v := by
  intro l
  induction l with
  | nil => intro a; rfl
  | cons x t ih =>
    intro a
    rw [List.foldl_cons, List.foldl_cons,
      show op (op a v) x = op (op a x) v from by
        rw [hassoc, hcomm v x, ← hassoc],
      ih]

theorem foldl_set_op {α : Type} (op : α → α → α)
    (hassoc : ∀ a b c, op (op a b) c = op a (op b c))
    (hcomm : ∀ a b, op a b = op b a) (idty v : α) :
    ∀ (l : List α) (j : Nat) (a : α), j < l.length →
      (l.set j (op (l.getD j idty) v)).foldl op a = op (l.foldl op a) v := by
  intro l
  induction l with
  | nil => intro j a hj; exact absurd hj (by simp)
  | cons x t ih =>
    intro j a hj
    cases j with
    | zero =>
      rw [List.set_cons_zero, List.getD_cons_zero, List.foldl_cons, List.foldl_cons,
        show op a (op x v) = op (op a x) v from (hassoc a x v).symm,
        foldl_pull_right op hassoc hcomm v t (op a x)]
    | succ j =>
      rw [List.set_cons_succ, List.getD_cons_succ, List.foldl_cons, List.foldl_cons]
      exact ih j (op a x) (by simpa using hj)

theorem collapse_set_op {α : Type} (op : α → α → α)
    (hassoc : ∀ a b c, op (op a b) c = op a (op b c))
    (hcomm : ∀ a b, op a b = op b a) (idty v : α)
    (l : List α) (j : Nat) (hj : j < l.length) :
    collapse op idty (l.set j (op (l.getD j idty) v)) = op (collapse op idty l) v := by
  cases l with
  | nil => exact absurd hj (by simp)
  | cons h tl =>
    cases j with
    | zero =>
      rw [List.set_cons_zero, List.getD_cons_zero]
      show tl.foldl op (op h v) = op (tl.foldl op h) v
      exact foldl_pull_right op hassoc hcomm v tl h
    | succ j =>
      rw [List.set_cons_succ, List.getD_cons_succ]
      show (tl.set j (op (tl.getD j idty) v)).foldl op h = op (tl.foldl op h) v
      exact foldl_set_op op hassoc hcomm idty v tl j h (by simpa using hj)

theorem foldl_replicate_id {α : Type} (op : α → α → α) (idty : α)
    (hid : ∀ a, op idty a = a) :
    ∀ k, (List.replicate k idty).foldl op idty = idty := by
  intro k
  induction k with
  | zero => rfl
  | succ k ih =>
    rw [List.replicate_succ, List.foldl_cons, hid]
    exact ih

theorem collapse_replicate {α : Type} (op : α → α → α) (idty : α)
    (hid : ∀ a, op idty a = a) (T : Nat) :
    collapse op idty (List.replicate T idty) = idty := by
  cases T with
  | zero => rfl
  | succ T =>
    rw [List.replicate_succ]
    show (List.replicate T idty).foldl op idty = idty
    exact foldl_replicate_id op idty hid T

theorem foldl_upd_length {α : Type} (op : α → α → α) (idty : α) (bs : Nat) (xs : List α) :
    ∀ (sched : List (Nat × Nat)) (init : List α),
      (sched.foldl
        (fun it p => updateIntermediate op idty it p.1 (blockVal op idty bs xs p.2))
        init).length = init.length := by
  intro sched
  induction sched with
  | nil => intro init; rfl
  | cons p t ih =>
    intro init
    rw [List.foldl_cons, ih]
    simp [updateIntermediate]

theorem sched_collapse {α : Type} (op : α → α → α) (idty : α) (bs : Nat) (xs : List α)
    (hassoc : ∀ a b c, op (op a b) c = op a (op b c))
    (hcomm : ∀ a b, op a b = op b a)
    (hid : ∀ a, op idty a = a) (T : Nat) :
    ∀ sched : List (Nat × Nat), (∀ p ∈ sched, p.1 < T) →
      collapse op idty
        (sched.foldl
          (fun it p => updateIntermediate op idty it p.1 (blockVal op idty bs xs p.2))
          (List.replicate T idty)) =
      (sched.map (fun p => blockVal op idty bs xs p.2)).foldl op idty := by
  intro sched
  induction sched using List.reverseRecOn with
  | nil =>
    intro _
    rw [List.foldl_nil, List.map_nil, List.foldl_nil]
    exact collapse_replicate op idty hid T
  | append_singleton l p ihl =>
    intro hp
    rw [List.foldl_append, List.foldl_cons, List.foldl_nil]
    have hlen : (l.foldl
        (fun it q => updateIntermediate op idty it q.1 (blockVal op idty bs xs q.2))
        (List.replicate T idty)).length = T := by
      rw [foldl_upd_length, List.length_replicate]
    have hj : p.1 < (l.foldl
        (fun it q => updateIntermediate op idty it q.1 (blockVal op idty bs xs q.2))
        (List.replicate T idty)).length := by
      rw [hlen]
      exact hp p (List.mem_append_right l (List.mem_singleton.mpr rfl))
    rw [updateIntermediate, collapse_set_op op hassoc hcomm idty _ _ _ hj,
      ihl (fun q hq => hp q (List.mem_append_left [p] hq)),
      List.map_append, List.foldl_append, List.map_cons, List.map_nil,
      List.foldl_cons, List.foldl_nil]

theorem foldl_map_blocks {α : Type} (op : α → α → α) (idty : α)
    (hassoc : ∀ a b c, op (op a b) c = op a (op b c))
    (hcomm : ∀ a b, op a b = op b a)
    (hid : ∀ a, op idty a = a) :
    ∀ (chs : List (List α)) (a : α),
      (chs.map (fun ch => ch.foldl op idty)).foldl op a = chs.flatten.foldl op a := by
  intro chs
  induction chs with
  | nil => intro a; rfl
  | cons ch t ih =>
    intro a
    rw [List.map_cons, List.foldl_cons,
      show op a (ch.foldl op idty) = ch.foldl op a from by
        rw [foldl_op_left op hassoc a ch idty, hcomm a idty, hid],
      ih, List.flatten_cons, List.foldl_append]

theorem chunks_prefix {α : Type} (bs : Nat) (xs : List α) :
    ∀ k, ((List.range k).map (fun b => (xs.drop (b * bs)).take bs)).flatten ++
      xs.drop (k * bs) = xs := by
  intro k
  induction k with
  | zero => simp
  | succ k ih =>
    rw [List.range_succ, List.map_append, List.flatten_append,
      List.map_cons, List.map_nil, List.flatten_cons, List.flatten_nil,
      List.append_nil, List.append_assoc,
      show xs.drop ((k + 1) * bs) = (xs.drop (k * bs)).drop bs from by
        rw [List.drop_drop]; congr 1; ring,
      List.take_append_drop]
    exact ih

theorem blocks_flatten {α : Type} (bs : Nat) (xs : List α) :
    ((List.range (numTasks bs xs.length)).map (blockElems bs xs)).flatten = xs := by
  have h1 : 1 ≤ numTasks bs xs.length := Nat.le_add_right 1 _
  have hm : numTasks bs xs.length = (numTasks bs xs.length - 1) + 1 :=
    (Nat.sub_add_cancel h1).symm
  rw [hm, List.range_succ, List.map_append, List.flatten_append,
    List.map_cons, List.map_nil, List.flatten_cons, List.flatten_nil, List.append_nil]
  have hcongr : ((List.range (numTasks bs xs.length - 1)).map (blockElems bs xs)) =
      (List.range (numTasks bs xs.length - 1)).map
        (fun b => (xs.drop (b * bs)).take bs) := by
    refine List.map_congr_left ?_
    intro b hb
    have hblt := List.mem_range.mp hb
    rw [blockElems, if_neg (fun heq => by rw [← heq] at hblt; omega)]
  have hlast : blockElems bs xs (numTasks bs xs.length - 1) =
      xs.drop ((numTasks bs xs.length - 1) * bs) := by
    rw [blockElems, if_pos hm.symm]
  rw [hcongr, hlast]
  exact chunks_prefix bs xs (numTasks bs xs.length - 1)

/-- C7: reduce delivers fold(op, id, xs) to the callback at timestamp ts, for an
associative, commutative op with left identity id, under every valid schedule
(every block task runs exactly once, on an arbitrary thread). -/
theorem reduce_callback_value {α : Type} (op : α → α → α) (idty : α) (T bs : Nat)
    (xs : List α) (sched : List (Nat × Nat)) (cbts : Nat)
    (hassoc : ∀ a b c, op (op a b) c = op a (op b c))
    (hcomm : ∀ a b, op a b = op b a)
    (hid : ∀ a, op idty a = a)
    (hsched : (sched.map Prod.snd).Perm (List.range (numTasks bs xs.length)))
    (htid : ∀ p ∈ sched, p.1 < T) :
    reducerResult op idty T bs xs sched cbts = (xs.foldl op idty, cbts) := by
  rw [reducerResult]
  by_cases hm : numTasks bs xs.length = 1
  · rw [if_pos hm]
  · rw [if_neg hm]
    refine Prod.ext ?_ rfl
    show collapse op idty _ = _
    rw [sched_collapse op idty bs xs hassoc hcomm hid T sched htid]
    have hmap : sched.map (fun p => blockVal op idty bs xs p.2) =
        (sched.map Prod.snd).map (blockVal op idty bs xs) := by
      rw [List.map_map]; rfl
    have hperm2 := hsched.map (blockVal op idty bs xs)
    have hfold := @List.Perm.foldl_eq _ _ op _ _
      ⟨fun b a₁ a₂ => by rw [hassoc, hcomm a₁ a₂, ← hassoc]⟩ hperm2 idty
    rw [hmap, hfold,
      show (List.range (numTasks bs xs.length)).map (blockVal op idty bs xs) =
        ((List.range (numTasks bs xs.length)).map (blockElems bs xs)).map
          (fun ch => ch.foldl op idty) from by rw [List.map_map]; rfl,
      foldl_map_blocks op idty hassoc hcomm hid, blocks_flatten]

theorem reduce_callback_value_witness :
    ((([((0 : Nat), (0 : Nat)), (1, 1), (0, 2)]).map Prod.snd).Perm
       (List.range (numTasks 2 ([1, 2, 3, 4, 5] : List Nat).length))) ∧
    reducerResult (fun a b : Nat => a + b) 0 2 2 [1, 2, 3, 4, 5]
        [(0, 0), (1, 1), (0, 2)] 10 =
      (([1, 2, 3, 4, 5] : List Nat).foldl (fun a b : Nat => a + b) 0, 10) :=
  ⟨by decide,
   reduce_callback_value (fun a b : Nat => a + b) 0 2 2 [1, 2, 3, 4, 5]
     [(0, 0), (1, 1), (0, 2)] 10
     (fun a b c => Nat.add_assoc a b c) (fun a b => Nat.add_comm a b)
     (fun a => Nat.zero_add a) (by decide) (by decide)⟩

/-- C7 counterexample: associativity of op alone does not guarantee that the callback
receives fold(op, id, xs). List append is associative, yet under a valid schedule in
which block 1's updateIntermediate runs before block 0's, the callback receives
[3,4,1,2] instead of fold (++) [] [[1],[2],[3],[4]] = [1,2,3,4]: the per-thread
intermediates combine block results in completion order, so commutativity is required. -/
theorem reduce_assoc_not_sufficient :
    (∀ a b c : List Nat, (a ++ b) ++ c = a ++ (b ++ c)) ∧
    (∀ a : List Nat, [] ++ a = a) ∧
    ((([((0 : Nat), (1 : Nat)), (0, 0)]).map Prod.snd).Perm
      (List.range (numTasks 2 ([[1], [2], [3], [4]] : List (List Nat)).length))) ∧
    (∀ p ∈ [((0 : Nat), (1 : Nat)), (0, 0)], p.1 < 1) ∧
    reducerResult (fun a b : List Nat => a ++ b) [] 1 2 [[1], [2], [3], [4]]
        [(0, 1), (0, 0)] 10 = ([3, 4, 1, 2], 10) ∧
    ([3, 4, 1, 2] : List Nat) ≠
      ([[1], [2], [3], [4]] : List (List Nat)).foldl (fun a b => a ++ b) [] :=
  ⟨fun a b c => List.append_assoc a b c, fun a => List.nil_append a,
   by decide, by decide, by decide, by decide⟩

/-- block.h grainSize specialised to the char iterators copy uses (element size 1,
SWARM_CACHE_LINE 64): numTasks = 4*num_threads() (uint32), elemsPerTask =
1 + (elements-1)/numTasks with the size_t subtraction wrapping at elements = 0 and the
result truncated to uint32, cacheLinesPerTask = max(1, elemsPerTask/64), and the returned
grain is 2^floor(log2 cacheLinesPerTask) (1 << (31 - clz)). A zero numTasks (num_threads
congruent to 0 mod 2^30) is C++ division by zero; Lean's x / 0 = 0 convention stands in. -/
def grainSize (nthreads bytes : Nat) : Nat :=
  let numTasksG := (4 * nthreads) % 2 ^ 32
  let elemsPerTask := (1 + ((bytes + 2 ^ 64 - 1) % 2 ^ 64) / numTasksG) % 2 ^ 32
  let cacheLinesPerTask := max 1 (elemsPerTask / 64)
  2 ^ ilog2 cacheLinesPerTask

/-- A copier task enqueue as issued by swarm::copy: the template grain (the switch maps
any grain other than 1/2/4/8 to 16), the timestamp, and the (dest, source, bytes) args. -/
structure CopyEnq where
  grain : Nat
  ts : Nat
  dest : Nat
  source : Nat
  bytes : Nat
deriving DecidableEq

/-- swarm::copy over byte addresses (oracle_tasks.h): source/dest are the raw pointers,
bytes = (last - first) * sizeof(*first). Aborts (none) iff
source < dest + bytes && dest < source + bytes; otherwise enqueues one root __copier task
at ts whose grain template argument follows the switch on block::grainSize. -/
def copy (nthreads source dest bytes ts : Nat) : Option CopyEnq :=
  if source < dest + bytes ∧ dest < source + bytes then none
  else
    let g := grainSize nthreads bytes
    some ⟨if g = 1 then 1 else if g = 2 then 2 else if g = 4 then 4
          else if g = 8 then 8 else 16,
          ts, dest, source, bytes⟩

/-- C9: for a non-empty range, copy aborts iff the source byte range [source, source+bytes)
and the destination byte range [dest, dest+bytes) overlap; when they do not overlap it
enqueues a root copier task (no abort) carrying the requested timestamp and byte count. -/
theorem copy_aborts_iff_overlap (nthreads source dest bytes ts : Nat) (hb : 0 < bytes) :
    (copy nthreads source dest bytes ts = none ↔
      ∃ x, (source ≤ x ∧ x < source + bytes) ∧ (dest ≤ x ∧ x < dest + bytes)) ∧
    ((¬ ∃ x, (source ≤ x ∧ x < source + bytes) ∧ (dest ≤ x ∧ x < dest + bytes)) →
      ∃ e, copy nthreads source dest bytes ts = some e ∧
        e.ts = ts ∧ e.dest = dest ∧ e.source = source ∧ e.bytes = bytes) := by
  have key : (source < dest + bytes ∧ dest < source + bytes) ↔
      ∃ x, (source ≤ x ∧ x < source + bytes) ∧ (dest ≤ x ∧ x < dest + bytes) := by
    constructor
    · intro h
      refine ⟨max source dest, ⟨?_, ?_⟩, ⟨?_, ?_⟩⟩ <;> omega
    · rintro ⟨x, ⟨h1, h2⟩, h3, h4⟩
      omega
  by_cases h : source < dest + bytes ∧ dest < source + bytes
  · rw [copy, if_pos h]
    exact ⟨⟨fun _ => key.mp h, fun _ => rfl⟩,
      fun hno => absurd (key.mp h) hno⟩
  · rw [copy, if_neg h]
    refine ⟨⟨fun hc => absurd hc (by simp), fun hov => absurd (key.mpr hov) h⟩, ?_⟩
    intro _
    exact ⟨_, rfl, rfl, rfl, rfl, rfl⟩

theorem copy_aborts_iff_overlap_witness :
    0 < 10 ∧
    ((copy 1 0 100 10 7 = none ↔
      ∃ x, (0 ≤ x ∧ x < 0 + 10) ∧ (100 ≤ x ∧ x < 100 + 10)) ∧
    ((¬ ∃ x, (0 ≤ x ∧ x < 0 + 10) ∧ (100 ≤ x ∧ x < 100 + 10)) →
      ∃ e, copy 1 0 100 10 7 = some e ∧
        e.ts = 7 ∧ e.dest = 100 ∧ e.source = 0 ∧ e.bytes = 10)) :=
  ⟨by decide, copy_aborts_iff_overlap 1 0 100 10 7 (by decide)⟩

end Swarm
